import Mathlib

/-!
# Verification of the phylogenetic tree core (`src/tree.py`)

Shallow embedding of the `Tree` class, the extended-Newick parser and
serializer, the mutation operations (`remove_nodes_by_name`, `binarize`) and
the topology statistics (`tree_size`, `node_imbalance`, `iter_edges`,
`get_subtree`, `get_hpd`) of the repository.

Python floats are modelled as rationals (`ℚ`); Python strings as `List Char`;
a Python `dict` as an association list with unique keys; a raised exception
(`AssertionError`, `KeyError`, `IndexError`, `ValueError`) as `none` of an
`Option` result.

The `Tree` class is embedded twice, reflecting two aspects of its state:
* `Tree` below is the value view (lengths, names, attributes, children) used
  by the parser, serializer, `binarize` and the statistics, none of which
  read the `parent` back-pointer;
* `NTree` additionally carries the object identity (`id`) and the stored
  `parent` pointer (`parentId`) as data, and is used for
  `remove_nodes_by_name` / `copy_other_node`, whose specification is about
  those pointers.
-/

namespace Phylo

/-- An attribute value, as produced by `parse_value`: a Python float or a
string. -/
inductive AttrVal where
  | num (q : ℚ)
  | txt (s : List Char)
deriving DecidableEq, Repr

/-- A geo-location as stored in `Tree._location`: the pair `np.array([x, y])`
built by `get_location_from_attributes` (entries are attribute values). -/
abbrev Loc := AttrVal × AttrVal

/-- The scalar fields of a `Tree` node (everything except `children`):
`length`, `name`, `attributes`, `_location` and `alignment`. -/
structure Info where
  length : ℚ
  name : List Char
  attributes : List (List Char × AttrVal)
  loc : Option Loc
  alignment : List Int
deriving DecidableEq, Repr

/-- The `Tree` class of `src/tree.py` (value view: the `parent` back-pointer
is carried by the `NTree` embedding instead). -/
inductive Tree where
  | node (info : Info) (children : List Tree)

def Tree.info : Tree → Info
  | .node i _ => i

def Tree.children : Tree → List Tree
  | .node _ cs => cs

def Tree.length (t : Tree) : ℚ := t.info.length

def Tree.name (t : Tree) : List Char := t.info.name

def Tree.attributes (t : Tree) : List (List Char × AttrVal) := t.info.attributes

def Tree.loc (t : Tree) : Option Loc := t.info.loc

def Tree.alignment (t : Tree) : List Int := t.info.alignment

mutual

/-- `Tree.tree_size`: `1` plus the sizes of the children. -/
def Tree.tree_size : Tree → Nat
  | .node _ cs => 1 + treeSizeList cs

def treeSizeList : List Tree → Nat
  | [] => 0
  | c :: cs => c.tree_size + treeSizeList cs

end

/-- `Tree.is_leaf`: `len(self.children) == 0`. -/
def Tree.is_leaf (t : Tree) : Bool := t.children.isEmpty

mutual

/-- `Tree.n_leafs`: `1 if self.is_leaf() else 0`, plus the children's counts. -/
def Tree.n_leafs : Tree → Nat
  | .node _ cs => (if cs.isEmpty then 1 else 0) + nLeafsList cs

def nLeafsList : List Tree → Nat
  | [] => 0
  | c :: cs => c.n_leafs + nLeafsList cs

end

/-- Python list indexing `l[i]` for an `int` index: negative indices count
from the end; an out-of-range index raises `IndexError` (modelled as `none`). -/
def pyIdx {α : Type} (l : List α) (i : Int) : Option α :=
  if i < 0 then
    if (0:Int) ≤ (l.length : Int) + i then l.get? ((l.length : Int) + i).toNat else none
  else
    l.get? i.toNat

/-- `Tree.get_subtree`: follow a list of child indices from the node; an
out-of-range index raises `IndexError` (`none`). -/
def Tree.get_subtree : Tree → List Int → Option Tree
  | t, [] => some t
  | t, i :: rest => (pyIdx t.children i).bind (fun c => c.get_subtree rest)

/-- Whether every index along `path` is within the bounds of the
corresponding child list (the domain of `Tree.get_subtree`). -/
def Tree.validPath : Tree → List Int → Bool
  | _, [] => true
  | t, i :: rest =>
    match pyIdx t.children i with
    | none => false
    | some c => c.validPath rest

mutual

/-- `Tree.iter_edges`: for each child `c` of each node `n` (in depth-first
order) yield the pair `(n, c)`. -/
def Tree.iter_edges : Tree → List (Tree × Tree)
  | .node i cs => iterEdgesList (.node i cs) cs

def iterEdgesList : Tree → List Tree → List (Tree × Tree)
  | _, [] => []
  | t, c :: cs => (t, c) :: (c.iter_edges ++ iterEdgesList t cs)

end

mutual

/-- `Tree.iter_descendants`: all nodes of the tree in depth-first preorder. -/
def Tree.iter_descendants : Tree → List Tree
  | .node i cs => .node i cs :: iterDescList cs

def iterDescList : List Tree → List Tree
  | [] => []
  | c :: cs => c.iter_descendants ++ iterDescList cs

end

/-- `node_imbalance`: asserts at most 2 children (`none` models the failed
assertion), returns 0 below 2 children or below subtree size 4, and otherwise
`(bigger - m) / (size - m - 1)` with `m = np.ceil(size / 2)`. -/
def node_imbalance (t : Tree) : Option ℚ :=
  if t.children.length > 2 then none
  else if t.children.length < 2 then some 0
  else if t.tree_size < 4 then some 0
  else
    match t.children with
    | [c1, c2] =>
      let size : ℚ := t.tree_size
      let bigger : ℚ := max c1.tree_size c2.tree_size
      let m : ℚ := ⌈size / 2⌉
      some ((bigger - m) / (size - m - 1))
    | _ => none

/-- Simultaneous induction principle for `Tree` and lists of trees. -/
theorem Tree.inductionOn {P : Tree → Prop} {Q : List Tree → Prop}
    (hnode : ∀ i cs, Q cs → P (.node i cs))
    (hnil : Q [])
    (hcons : ∀ t ts, P t → Q ts → Q (t :: ts)) : ∀ t, P t :=
  fun t => Tree.rec (motive_1 := P) (motive_2 := Q) hnode hnil hcons t

theorem Tree.inductionOnList {P : Tree → Prop} {Q : List Tree → Prop}
    (hnode : ∀ i cs, Q cs → P (.node i cs))
    (hnil : Q [])
    (hcons : ∀ t ts, P t → Q ts → Q (t :: ts)) : ∀ ts, Q ts :=
  fun ts => List.rec hnil
    (fun t ts ih => hcons t ts (Tree.inductionOn hnode hnil hcons t) ih) ts

theorem tree_size_pos (t : Tree) : 1 ≤ t.tree_size := by
  cases t with
  | node i cs => simp [Tree.tree_size]

theorem listGetqIsSome {α : Type} (l : List α) (n : Nat) :
    (l.get? n).isSome ↔ n < l.length := by
  constructor
  · intro h
    by_contra hn
    rw [List.get?_eq_none.mpr (by omega)] at h
    simp at h
  · intro h
    rw [List.get?_eq_get h]
    simp

theorem pyIdx_isSome {α : Type} (l : List α) (i : Int) :
    (pyIdx l i).isSome ↔ (-(l.length : Int) ≤ i ∧ i < l.length) := by
  unfold pyIdx
  by_cases hi : i < 0
  · simp only [hi, if_true]
    by_cases hb : (0:Int) ≤ (l.length : Int) + i
    · simp only [hb, if_true, listGetqIsSome]
      omega
    · simp only [hb, if_false, Option.isSome_none]
      constructor
      · intro h
        exact absurd h (by simp)
      · intro h
        omega
  · simp only [hi, if_false, listGetqIsSome]
    omega

theorem get_subtree_isSome (p : List Int) :
    ∀ t : Tree, (t.get_subtree p).isSome ↔ t.validPath p = true := by
  induction p with
  | nil => intro t; simp [Tree.get_subtree, Tree.validPath]
  | cons i rest ih =>
    intro t
    simp only [Tree.get_subtree, Tree.validPath]
    cases h : pyIdx t.children i with
    | none => simp
    | some c => simp [ih c]

/-- C9: `get_subtree` on the empty path returns the node itself; on `i :: rest`
it recurses into the `i`-th child (Python indexing); and it is defined exactly
when every index along the path is within the corresponding child-list bounds
(for a single step: `-len ≤ i < len` with Python's negative-index rule). -/
theorem get_subtree_spec (t : Tree) (i : Int) (rest p : List Int) :
    t.get_subtree [] = some t
    ∧ t.get_subtree (i :: rest) = (pyIdx t.children i).bind (fun c => c.get_subtree rest)
    ∧ ((t.get_subtree p).isSome ↔ t.validPath p = true)
    ∧ ((pyIdx t.children i).isSome ↔ (-(t.children.length : Int) ≤ i ∧ i < t.children.length)) :=
  ⟨rfl, rfl, get_subtree_isSome p t, pyIdx_isSome t.children i⟩

/- ### `iter_edges` (C10) -/

theorem iterEdgesList_map_snd (t : Tree) (cs : List Tree) :
    ∀ (_ : ∀ c ∈ cs, (c.iter_edges.map Prod.snd) = c.iter_descendants.drop 1),
    (iterEdgesList t cs).map Prod.snd = iterDescList cs := by
  induction cs with
  | nil => intro _; simp [iterEdgesList, iterDescList]
  | cons c cs ih =>
    intro h
    simp only [iterEdgesList, iterDescList, List.map_cons, List.map_append]
    rw [h c (by simp), ih (fun c hc => h c (by simp [hc]))]
    cases c with
    | node i cs' =>
      simp [Tree.iter_descendants]

theorem iter_edges_map_snd :
    ∀ t : Tree, (t.iter_edges.map Prod.snd) = t.iter_descendants.drop 1 := by
  have main := Tree.inductionOn
    (P := fun t => (t.iter_edges.map Prod.snd) = t.iter_descendants.drop 1)
    (Q := fun cs => ∀ c ∈ cs, (c.iter_edges.map Prod.snd) = c.iter_descendants.drop 1)
    (fun i cs hq => by
      simp only [Tree.iter_edges, Tree.iter_descendants, List.drop_succ_cons, List.drop_zero]
      exact iterEdgesList_map_snd _ cs hq)
    (by intro c hc; cases hc)
    (fun t ts hp hq => by
      intro c hc
      cases hc with
      | head => exact hp
      | tail _ h => exact hq c h)
  exact main

theorem iterDescList_length (cs : List Tree) :
    (∀ c ∈ cs, c.iter_descendants.length = c.tree_size) →
    (iterDescList cs).length = treeSizeList cs := by
  induction cs with
  | nil => intro _; simp [iterDescList, treeSizeList]
  | cons c cs ih =>
    intro h
    simp only [iterDescList, treeSizeList, List.length_append]
    rw [h c (by simp), ih (fun c hc => h c (by simp [hc]))]

theorem iter_descendants_length :
    ∀ t : Tree, t.iter_descendants.length = t.tree_size := by
  exact Tree.inductionOn
    (P := fun t => t.iter_descendants.length = t.tree_size)
    (Q := fun cs => ∀ c ∈ cs, c.iter_descendants.length = c.tree_size)
    (fun i cs hq => by
      simp only [Tree.iter_descendants, Tree.tree_size, List.length_cons]
      rw [iterDescList_length cs hq]
      omega)
    (by intro c hc; cases hc)
    (fun t ts hp hq => by
      intro c hc
      cases hc with
      | head => exact hp
      | tail _ h => exact hq c h)

theorem mem_iterDescList {x : Tree} {c : Tree} {cs : List Tree} (hc : c ∈ cs)
    (hx : x ∈ c.iter_descendants) : x ∈ iterDescList cs := by
  induction cs with
  | nil => cases hc
  | cons c' cs ih =>
    simp only [iterDescList, List.mem_append]
    cases hc with
    | head => exact Or.inl hx
    | tail _ h => exact Or.inr (ih h)

theorem iterEdgesList_cases (t : Tree) (cs : List Tree) :
    ∀ pr ∈ iterEdgesList t cs,
      (pr.1 = t ∧ pr.2 ∈ cs) ∨ (∃ c ∈ cs, pr ∈ c.iter_edges) := by
  induction cs with
  | nil => intro pr hpr; cases hpr
  | cons c cs ih =>
    intro pr hpr
    simp only [iterEdgesList, List.mem_cons, List.mem_append] at hpr
    rcases hpr with h1 | h2 | h3
    · subst h1
      exact Or.inl ⟨rfl, by simp⟩
    · exact Or.inr ⟨c, by simp, h2⟩
    · rcases ih pr h3 with ⟨h4, h5⟩ | ⟨c', hc', h6⟩
      · exact Or.inl ⟨h4, by simp [h5]⟩
      · exact Or.inr ⟨c', by simp [hc'], h6⟩

theorem iter_edges_mem :
    ∀ t : Tree, ∀ pr ∈ t.iter_edges,
      pr.2 ∈ pr.1.children ∧ pr.1 ∈ t.iter_descendants := by
  exact Tree.inductionOn
    (P := fun t => ∀ pr ∈ t.iter_edges,
      pr.2 ∈ pr.1.children ∧ pr.1 ∈ t.iter_descendants)
    (Q := fun cs => ∀ c ∈ cs, ∀ pr ∈ c.iter_edges,
      pr.2 ∈ pr.1.children ∧ pr.1 ∈ c.iter_descendants)
    (fun i cs hq => by
      intro pr hpr
      rcases iterEdgesList_cases (.node i cs) cs pr hpr with ⟨h1, h2⟩ | ⟨c, hc, h3⟩
      · rw [h1]
        exact ⟨h2, by simp [Tree.iter_descendants]⟩
      · obtain ⟨hmem, hdesc⟩ := hq c hc pr h3
        refine ⟨hmem, ?_⟩
        simp only [Tree.iter_descendants, List.mem_cons]
        exact Or.inr (mem_iterDescList hc hdesc))
    (by intro c hc; cases hc)
    (fun t ts hp hq => by
      intro c hc
      cases hc with
      | head => exact hp
      | tail _ h => exact hq c h)

/-- C10: `iter_edges` yields exactly `tree_size t - 1` pairs; the second
components, in order, are precisely the depth-first enumeration of all
nodes except the root (so every child of every node appears exactly once as a
second component, in depth-first order); and each pair is a node together
with one of its children. -/
theorem iter_edges_spec (t : Tree) :
    t.iter_edges.length = t.tree_size - 1
    ∧ t.iter_edges.map Prod.snd = t.iter_descendants.drop 1
    ∧ (∀ pr ∈ t.iter_edges, pr.2 ∈ pr.1.children ∧ pr.1 ∈ t.iter_descendants) := by
  refine ⟨?_, iter_edges_map_snd t, iter_edges_mem t⟩
  have h1 : t.iter_edges.length = (t.iter_edges.map Prod.snd).length := by
    simp
  rw [h1, iter_edges_map_snd t, List.length_drop, iter_descendants_length t]

/-- A concrete leaf node used in witnesses. -/
def sampleLeafA : Tree := .node ⟨1, ['a'], [], none, [0]⟩ []

/-- A second concrete leaf node used in witnesses. -/
def sampleLeafB : Tree := .node ⟨2, ['b'], [], none, [0]⟩ []

/-- A concrete two-leaf tree used in witnesses. -/
def sampleCherry : Tree := .node ⟨0, [], [], none, [0]⟩ [sampleLeafA, sampleLeafB]

/-- Witness for C10 at the concrete two-leaf tree. -/
theorem iter_edges_spec_witness :
    (sampleLeafA ∈ sampleCherry.children ∧ sampleCherry ∈ sampleCherry.iter_descendants)
    ∧ sampleCherry.iter_edges.length = 2 := by
  constructor
  · exact (iter_edges_spec sampleCherry).2.2 (sampleCherry, sampleLeafA)
      (show (sampleCherry, sampleLeafA) ∈
        (sampleCherry, sampleLeafA) :: [(sampleCherry, sampleLeafB)] from
        List.mem_cons_self _ _)
  · rw [(iter_edges_spec sampleCherry).1]
    rfl

/- ### `node_imbalance` (C2, C4) -/

theorem tree_size_two_children (i : Info) (c1 c2 : Tree) :
    (Tree.node i [c1, c2]).tree_size = 1 + c1.tree_size + c2.tree_size := by
  simp [Tree.tree_size, treeSizeList]
  ring

theorem ceil_half_nat (n : ℕ) : ⌈(n : ℚ) / 2⌉ = (((n + 1) / 2 : ℕ) : ℤ) := by
  set k : ℕ := (n + 1) / 2 with hk
  have hk1 : n ≤ 2 * k := by omega
  have hk2 : 2 * k ≤ n + 1 := by omega
  rw [Int.ceil_eq_iff]
  have h1 : (n : ℚ) ≤ 2 * k := by exact_mod_cast hk1
  have h2 : (2 * k : ℚ) ≤ (n : ℚ) + 1 := by exact_mod_cast hk2
  push_cast
  constructor
  · linarith
  · linarith

theorem node_imbalance_formula (i : Info) (c1 c2 : Tree)
    (hs : 4 ≤ (Tree.node i [c1, c2]).tree_size) :
    node_imbalance (.node i [c1, c2]) =
      some ((((max c1.tree_size c2.tree_size : ℕ) : ℚ) - ⌈((Tree.node i [c1, c2]).tree_size : ℚ) / 2⌉)
        / (((Tree.node i [c1, c2]).tree_size : ℚ) - ⌈((Tree.node i [c1, c2]).tree_size : ℚ) / 2⌉ - 1)) := by
  unfold node_imbalance
  have hc : (Tree.node i [c1, c2]).children = [c1, c2] := rfl
  rw [hc]
  simp only [List.length_cons, List.length_nil]
  rw [if_neg (by norm_num), if_neg (by norm_num), if_neg (by omega)]
  simp [Nat.cast_max]

/-- C4: `node_imbalance` returns `(bigger - m) / (size - m - 1)` with
`m = ceil(size/2)` for a node with exactly 2 children and subtree size ≥ 4;
it returns 0 for fewer than 2 children or size < 4; and it fails its
assertion (modelled by `none`) for more than 2 children. -/
theorem node_imbalance_spec (t : Tree) (i : Info) (c1 c2 : Tree) :
    (t.children.length < 2 → node_imbalance t = some 0)
    ∧ (t.children.length = 2 → t.tree_size < 4 → node_imbalance t = some 0)
    ∧ (4 ≤ (Tree.node i [c1, c2]).tree_size →
        node_imbalance (.node i [c1, c2]) =
          some ((((max c1.tree_size c2.tree_size : ℕ) : ℚ)
                - ⌈((Tree.node i [c1, c2]).tree_size : ℚ) / 2⌉)
            / (((Tree.node i [c1, c2]).tree_size : ℚ)
                - ⌈((Tree.node i [c1, c2]).tree_size : ℚ) / 2⌉ - 1)))
    ∧ (2 < t.children.length → node_imbalance t = none) := by
  refine ⟨?_, ?_, fun hs => node_imbalance_formula i c1 c2 hs, ?_⟩
  · intro h
    unfold node_imbalance
    rw [if_neg (by omega), if_pos h]
  · intro h2 h4
    unfold node_imbalance
    rw [if_neg (by omega), if_neg (by omega), if_pos h4]
  · intro h
    unfold node_imbalance
    rw [if_pos h]

/-- First child of `sampleChain5`: an internal node with a single leaf. -/
def sampleChainChild1 : Tree :=
  .node ⟨1, [], [], none, [0]⟩ [.node ⟨1, ['a'], [], none, [0]⟩ []]

/-- Second child of `sampleChain5`: an internal node with a single leaf. -/
def sampleChainChild2 : Tree :=
  .node ⟨1, [], [], none, [0]⟩ [.node ⟨1, ['b'], [], none, [0]⟩ []]

/-- A concrete 5-node tree: root with two children, each an internal node
with a single leaf child. -/
def sampleChain5 : Tree :=
  .node ⟨0, [], [], none, [0]⟩ [sampleChainChild1, sampleChainChild2]

/-- First child of `sampleBal7`: a cherry of two leaves. -/
def sampleBalChild1 : Tree :=
  .node ⟨1, [], [], none, [0]⟩
    [.node ⟨1, ['a'], [], none, [0]⟩ [], .node ⟨1, ['b'], [], none, [0]⟩ []]

/-- Second child of `sampleBal7`: a cherry of two leaves. -/
def sampleBalChild2 : Tree :=
  .node ⟨1, [], [], none, [0]⟩
    [.node ⟨1, ['c'], [], none, [0]⟩ [], .node ⟨1, ['d'], [], none, [0]⟩ []]

/-- A concrete perfectly balanced binary tree with 7 nodes. -/
def sampleBal7 : Tree :=
  .node ⟨0, [], [], none, [0]⟩ [sampleBalChild1, sampleBalChild2]

theorem ceil_five_halves : ⌈(5:ℚ)/2⌉ = 3 := by
  rw [Int.ceil_eq_iff]
  norm_num

theorem ceil_seven_halves : ⌈(7:ℚ)/2⌉ = 4 := by
  rw [Int.ceil_eq_iff]
  norm_num

/-- `node_imbalance` on the concrete 5-node tree is `(2-3)/(5-3-1) = -1`. -/
theorem node_imbalance_chain5 : node_imbalance sampleChain5 = some (-1) := by
  have h := node_imbalance_formula ⟨0, [], [], none, [0]⟩
    sampleChainChild1 sampleChainChild2 (by decide)
  rw [show node_imbalance sampleChain5 =
      node_imbalance (.node ⟨0, [], [], none, [0]⟩ [sampleChainChild1, sampleChainChild2])
    from rfl, h]
  rw [show max sampleChainChild1.tree_size sampleChainChild2.tree_size = 2 from rfl,
      show (Tree.node ⟨0, [], [], none, [0]⟩ [sampleChainChild1, sampleChainChild2]).tree_size = 5
    from rfl]
  push_cast
  rw [ceil_five_halves]
  norm_num

/-- `node_imbalance` on the balanced 7-node tree is `(3-4)/(7-4-1) = -1/2`. -/
theorem node_imbalance_bal7 : node_imbalance sampleBal7 = some (-(1/2)) := by
  have h := node_imbalance_formula ⟨0, [], [], none, [0]⟩
    sampleBalChild1 sampleBalChild2 (by decide)
  rw [show node_imbalance sampleBal7 =
      node_imbalance (.node ⟨0, [], [], none, [0]⟩ [sampleBalChild1, sampleBalChild2])
    from rfl, h]
  rw [show max sampleBalChild1.tree_size sampleBalChild2.tree_size = 3 from rfl,
      show (Tree.node ⟨0, [], [], none, [0]⟩ [sampleBalChild1, sampleBalChild2]).tree_size = 7
    from rfl]
  push_cast
  rw [ceil_seven_halves]
  norm_num

/-- Witness for C4: the formula case evaluated on the concrete 5-node tree
(`m = 3`, `bigger = 2`, so the value is `(2-3)/(5-3-1) = -1`). -/
theorem node_imbalance_spec_witness :
    4 ≤ sampleChain5.tree_size ∧ node_imbalance sampleChain5 = some (-1) := by
  refine ⟨by decide, ?_⟩
  have h := (node_imbalance_spec sampleChain5 ⟨0, [], [], none, [0]⟩
    sampleChainChild1 sampleChainChild2).2.2.1 (by decide)
  rw [show node_imbalance sampleChain5 =
      node_imbalance (.node ⟨0, [], [], none, [0]⟩ [sampleChainChild1, sampleChainChild2])
    from rfl, h]
  rw [show max sampleChainChild1.tree_size sampleChainChild2.tree_size = 2 from rfl,
      show (Tree.node ⟨0, [], [], none, [0]⟩ [sampleChainChild1, sampleChainChild2]).tree_size = 5
    from rfl]
  push_cast
  rw [ceil_five_halves]
  norm_num

/-- Counterexample to C2 as stated: `sampleChain5` has exactly 2 children and
subtree size 5 ≥ 4, yet `node_imbalance` is `-1 ∉ [0, 1]`; and the perfectly
balanced 7-node binary tree has `node_imbalance = -1/2 ≠ 0` at the root even
though its two child subtrees have equal size. -/
theorem node_imbalance_bounds_cex :
    sampleChain5.children.length = 2
    ∧ 4 ≤ sampleChain5.tree_size
    ∧ node_imbalance sampleChain5 = some (-1)
    ∧ ¬((0 : ℚ) ≤ -1)
    ∧ sampleBal7.tree_size = 7
    ∧ sampleBal7.children.map Tree.tree_size = [3, 3]
    ∧ node_imbalance sampleBal7 = some (-(1/2))
    ∧ (-(1/2) : ℚ) ≠ 0 := by
  refine ⟨rfl, by decide, node_imbalance_chain5, by norm_num, by decide, by decide,
    node_imbalance_bal7, by norm_num⟩

theorem max_le_sum_sub_one {a b : ℕ} (ha : 1 ≤ a) (hb : 1 ≤ b) :
    max a b ≤ a + b - 1 := by
  cases le_total a b with
  | inl h => rw [max_eq_right h]; omega
  | inr h => rw [max_eq_left h]; omega

/-- C2 amended: for a node with exactly 2 children and subtree size ≥ 4,
`node_imbalance` lies in `[-1, 1]` (not `[0, 1]`), and when the two child
subtrees have equal size the value equals `-2 / (size - 3)` — which is
negative, not 0, so a perfectly balanced binary tree does not have
imbalance 0 at its equal-split internal nodes. -/
theorem node_imbalance_bounds_amended (i : Info) (c1 c2 : Tree)
    (hs : 4 ≤ (Tree.node i [c1, c2]).tree_size) :
    ∃ v : ℚ, node_imbalance (.node i [c1, c2]) = some v
      ∧ -1 ≤ v ∧ v ≤ 1
      ∧ (c1.tree_size = c2.tree_size →
          v = -2 / (((Tree.node i [c1, c2]).tree_size : ℚ) - 3)) := by
  have hf := node_imbalance_formula i c1 c2 hs
  set s1 := c1.tree_size with hs1def
  set s2 := c2.tree_size with hs2def
  have hs1 : 1 ≤ s1 := tree_size_pos c1
  have hs2 : 1 ≤ s2 := tree_size_pos c2
  have hnsize : (Tree.node i [c1, c2]).tree_size = 1 + s1 + s2 :=
    tree_size_two_children i c1 c2
  set n := (Tree.node i [c1, c2]).tree_size with hndef
  have hn4 : 4 ≤ n := hs
  rw [ceil_half_nat n] at hf
  set K := (n + 1) / 2 with hKdef
  set B := max s1 s2 with hBdef
  have hBle : B ≤ n - 2 := by
    have := max_le_sum_sub_one hs1 hs2
    omega
  have hBge : n - 1 ≤ 2 * B := by
    have h1 : s1 ≤ B := le_max_left s1 s2
    have h2 : s2 ≤ B := le_max_right s1 s2
    omega
  have hKn : K + 2 ≤ n := by omega
  have hd : (1 : ℚ) ≤ (n : ℚ) - (K : ℚ) - 1 := by
    have : ((K + 2 : ℕ) : ℚ) ≤ (n : ℚ) := by exact_mod_cast hKn
    push_cast at this
    linarith
  have hdpos : (0 : ℚ) < (n : ℚ) - (K : ℚ) - 1 := by linarith
  have hnumle : (B : ℚ) - (K : ℚ) ≤ (n : ℚ) - (K : ℚ) - 1 := by
    have : ((B : ℕ) : ℚ) + 2 ≤ (n : ℚ) := by exact_mod_cast (by omega : B + 2 ≤ n)
    linarith
  have hnumge : (-1 : ℚ) ≤ (B : ℚ) - (K : ℚ) := by
    have : ((K : ℕ) : ℚ) ≤ (B : ℚ) + 1 := by exact_mod_cast (by omega : K ≤ B + 1)
    linarith
  refine ⟨((B : ℚ) - (K : ℚ)) / ((n : ℚ) - (K : ℚ) - 1), ?_, ?_, ?_, ?_⟩
  · rw [hf]
    push_cast
    ring_nf
  · rw [le_div_iff₀ hdpos]
    linarith
  · rw [div_le_one hdpos]
    exact hnumle
  · intro heq
    have hseq : B = s1 := by rw [hBdef, heq, max_self]
    have hnodd : n = 2 * s1 + 1 := by omega
    have hK : K = s1 + 1 := by omega
    have hs1ge : 2 ≤ s1 := by omega
    rw [hseq, hK, hnodd]
    have hne : ((s1 : ℚ) - 1) ≠ 0 := by
      have : (2 : ℚ) ≤ (s1 : ℚ) := by exact_mod_cast hs1ge
      intro hcon
      linarith
    push_cast
    rw [show ((s1:ℚ) - ((s1:ℚ) + 1)) = -1 from by ring,
        show (2*(s1:ℚ) + 1 - ((s1:ℚ) + 1) - 1) = (s1:ℚ) - 1 from by ring,
        show (2*(s1:ℚ) + 1 - 3) = 2*((s1:ℚ) - 1) from by ring,
        div_eq_div_iff hne (by intro hcon; apply hne; linarith)]
    ring

/-- Witness for the amended C2 at the balanced 7-node tree. -/
theorem node_imbalance_bounds_amended_witness :
    4 ≤ sampleBal7.tree_size ∧
    (∃ v : ℚ, node_imbalance sampleBal7 = some v
      ∧ -1 ≤ v ∧ v ≤ 1
      ∧ (sampleBalChild1.tree_size = sampleBalChild2.tree_size →
          v = -2 / ((sampleBal7.tree_size : ℚ) - 3))) :=
  ⟨by decide, node_imbalance_bounds_amended ⟨0, [], [], none, [0]⟩
    sampleBalChild1 sampleBalChild2 (by decide)⟩

/- ### `binarize` (C6) -/

/-- Python `dict` lookup in the attributes mapping (`none` = `KeyError`). -/
def dictGet (attrs : List (List Char × AttrVal)) (k : List Char) : Option AttrVal :=
  (attrs.find? (fun kv => kv.1 == k)).map Prod.snd

/-- `Tree.get_location_from_attributes`: looks up `<key>1` / `<key>2` (or the
`_median` variants).  The outer `Option` is the possible `KeyError` when the
axis-1 key is present but the axis-2 key is missing; the inner `Option` is
the function's `None` result when no location attribute exists. -/
def Tree.get_location_from_attributes (t : Tree) (lk : List Char) : Option (Option Loc) :=
  match dictGet t.attributes (lk ++ ['1']) with
  | some x => (dictGet t.attributes (lk ++ ['2'])).map (fun y => some (x, y))
  | none =>
    match dictGet t.attributes (lk ++ ['1'] ++ "_median".toList) with
    | some x => (dictGet t.attributes (lk ++ ['2'] ++ "_median".toList)).map (fun y => some (x, y))
    | none => some none

/-- The `Tree.location` property: `_location` if set, else the location
derived from the attributes under the default key `location`. -/
def Tree.location (t : Tree) : Option (Option Loc) :=
  match t.loc with
  | some l => some (some l)
  | none => t.get_location_from_attributes "location".toList

/-- `Tree.__init__`'s treatment of the `alignment` argument:
`self.alignment = alignment or [0]` (an empty or missing list becomes `[0]`). -/
def alignmentOrDefault (a : List Int) : List Int :=
  if a.isEmpty then [0] else a

mutual

/-- Structural weight of a tree: counts one per node plus one per child slot
(termination measure for `binarize`). -/
def treeWeight : Tree → Nat
  | .node _ cs => 1 + weightList cs

def weightList : List Tree → Nat
  | [] => 0
  | c :: cs => 1 + treeWeight c + weightList cs

end

mutual

/-- `Tree.binarize`: a node with more than 2 children keeps its first child
and groups the remaining children under a new synthetic node with branch
length 0 that inherits the node's attributes, location and alignment
(`Tree.__init__` applies `alignment or [0]`); recursion continues into the
(now at most 2) children.  `none` models an exception raised while resolving
`self.location`. -/
def Tree.binarize : Tree → Option Tree
  | .node i cs =>
    match cs with
    | c0 :: c1 :: c2 :: rest =>
      ((Tree.node i cs).location).bind (fun l =>
        (c0.binarize).bind (fun d0 =>
          ((Tree.node
              { length := 0, name := [], attributes := i.attributes,
                loc := l, alignment := alignmentOrDefault i.alignment }
              (c1 :: c2 :: rest)).binarize).map (fun d1 =>
            Tree.node i [d0, d1])))
    | cs2 => (binarizeList cs2).map (fun cs' => Tree.node i cs')
termination_by t => treeWeight t
decreasing_by
  all_goals simp [treeWeight, weightList]
  all_goals omega

def binarizeList : List Tree → Option (List Tree)
  | [] => some []
  | c :: cs =>
    (c.binarize).bind (fun c' => (binarizeList cs).map (fun cs' => c' :: cs'))
termination_by cs => weightList cs
decreasing_by
  all_goals simp [treeWeight, weightList]
  all_goals omega

end

mutual

/-- Every node of the tree has at most 2 children. -/
def allLe2 : Tree → Bool
  | .node _ cs => decide (cs.length ≤ 2) && allLe2List cs

def allLe2List : List Tree → Bool
  | [] => true
  | c :: cs => allLe2 c && allLe2List cs

end

theorem treeWeight_pos (t : Tree) : 1 ≤ treeWeight t := by
  cases t with
  | node i cs => simp [treeWeight]

theorem binarize_eq_small (i : Info) (cs : List Tree) (h : cs.length ≤ 2) :
    Tree.binarize (.node i cs) = (binarizeList cs).map (fun cs' => Tree.node i cs') := by
  match cs, h with
  | [], _ => simp [Tree.binarize]
  | [a], _ => simp [Tree.binarize]
  | [a, b], _ => simp [Tree.binarize]

theorem binarize_eq_big (i : Info) (c0 c1 c2 : Tree) (rest : List Tree) :
    Tree.binarize (.node i (c0 :: c1 :: c2 :: rest)) =
      ((Tree.node i (c0 :: c1 :: c2 :: rest)).location).bind (fun l =>
        (c0.binarize).bind (fun d0 =>
          ((Tree.node
              { length := 0, name := [], attributes := i.attributes,
                loc := l, alignment := alignmentOrDefault i.alignment }
              (c1 :: c2 :: rest)).binarize).map (fun d1 =>
            Tree.node i [d0, d1]))) := by
  simp [Tree.binarize]

theorem binarizeList_eq_nil : binarizeList [] = some [] := by
  simp [binarizeList]

theorem binarizeList_eq_cons (c : Tree) (cs : List Tree) :
    binarizeList (c :: cs) =
      (c.binarize).bind (fun c' => (binarizeList cs).map (fun cs' => c' :: cs')) := by
  simp [binarizeList]

theorem weightList_le_of_mem {c : Tree} {cs : List Tree} (h : c ∈ cs) :
    treeWeight c < weightList cs + 1 := by
  induction cs with
  | nil => cases h
  | cons a cs ih =>
    cases h with
    | head => simp [weightList]; omega
    | tail _ h2 =>
      have := ih h2
      simp [weightList] at *
      omega

theorem binarize_le2_aux : ∀ n : Nat,
    (∀ t : Tree, treeWeight t ≤ n → ∀ t', t.binarize = some t' → allLe2 t' = true)
    ∧ (∀ cs : List Tree, weightList cs ≤ n → ∀ cs', binarizeList cs = some cs' →
        allLe2List cs' = true) := by
  intro n
  induction n with
  | zero =>
    constructor
    · intro t ht
      have := treeWeight_pos t
      omega
    · intro cs hcs cs' hb
      cases cs with
      | nil =>
        rw [binarizeList_eq_nil] at hb
        cases hb
        rfl
      | cons c cs =>
        have h1 := treeWeight_pos c
        have h2 : weightList (c :: cs) = 1 + treeWeight c + weightList cs := rfl
        omega
  | succ n ih =>
    constructor
    · intro t ht t' hb
      cases t with
      | node i cs =>
        match cs, ht, hb with
        | c0 :: c1 :: c2 :: rest, ht, hb =>
          rw [binarize_eq_big] at hb
          rw [Option.bind_eq_some] at hb
          obtain ⟨l, hl, hb⟩ := hb
          rw [Option.bind_eq_some] at hb
          obtain ⟨d0, h0, hb⟩ := hb
          rw [Option.map_eq_some'] at hb
          obtain ⟨d1, h1, hb⟩ := hb
          rw [← hb]
          have hd0 : allLe2 d0 = true := by
            refine ih.1 c0 ?_ d0 h0
            simp [treeWeight, weightList] at ht
            have := treeWeight_pos c1
            omega
          have hd1 : allLe2 d1 = true := by
            refine ih.1 _ ?_ d1 h1
            simp [treeWeight, weightList] at ht ⊢
            have := treeWeight_pos c0
            omega
          simp [allLe2, allLe2List, hd0, hd1]
        | [], ht, hb =>
          rw [binarize_eq_small i [] (by simp), binarizeList_eq_nil] at hb
          cases hb
          rfl
        | [c], ht, hb =>
          rw [binarize_eq_small i [c] (by simp)] at hb
          rw [Option.map_eq_some'] at hb
          obtain ⟨cs', hcs', hb⟩ := hb
          have h2 : allLe2List cs' = true := by
            refine ih.2 [c] ?_ cs' hcs'
            simp [treeWeight, weightList] at ht ⊢
            omega
          rw [← hb]
          cases cs' with
          | nil => rfl
          | cons a cs'' =>
            cases cs'' with
            | nil =>
              simp [allLe2, allLe2List] at h2 ⊢
              exact h2
            | cons b cs3 =>
              exfalso
              rw [binarizeList_eq_cons] at hcs'
              rw [Option.bind_eq_some] at hcs'
              obtain ⟨c', hc', hcs'⟩ := hcs'
              rw [Option.map_eq_some'] at hcs'
              obtain ⟨cs4, hcs4, heq⟩ := hcs'
              rw [binarizeList_eq_nil] at hcs4
              cases hcs4
              cases heq
        | [c, d], ht, hb =>
          rw [binarize_eq_small i [c, d] (by simp)] at hb
          rw [Option.map_eq_some'] at hb
          obtain ⟨cs', hcs', hb⟩ := hb
          have h2 : allLe2List cs' = true := by
            refine ih.2 [c, d] ?_ cs' hcs'
            simp [treeWeight, weightList] at ht ⊢
            omega
          have hlen : cs'.length = 2 := by
            rw [binarizeList_eq_cons] at hcs'
            rw [Option.bind_eq_some] at hcs'
            obtain ⟨c', hc', hcs'⟩ := hcs'
            rw [Option.map_eq_some'] at hcs'
            obtain ⟨cs4, hcs4, heq⟩ := hcs'
            rw [binarizeList_eq_cons] at hcs4
            rw [Option.bind_eq_some] at hcs4
            obtain ⟨d', hd', hcs4⟩ := hcs4
            rw [Option.map_eq_some'] at hcs4
            obtain ⟨cs5, hcs5, heq2⟩ := hcs4
            rw [binarizeList_eq_nil] at hcs5
            cases hcs5
            rw [← heq, ← heq2]
            rfl
          rw [← hb]
          cases cs' with
          | nil => rfl
          | cons a cs'' =>
            simp [allLe2, allLe2List] at h2 ⊢
            refine ⟨by simp at hlen; omega, ?_⟩
            exact h2
    · intro cs hcs cs' hb
      cases cs with
      | nil =>
        rw [binarizeList_eq_nil] at hb
        cases hb
        rfl
      | cons c cs =>
        rw [binarizeList_eq_cons] at hb
        rw [Option.bind_eq_some] at hb
        obtain ⟨c', hc', hb⟩ := hb
        rw [Option.map_eq_some'] at hb
        obtain ⟨csr, hcsr, hb⟩ := hb
        have h1 : allLe2 c' = true := by
          refine ih.1 c ?_ c' hc'
          simp [weightList] at hcs
          omega
        have h2 : allLe2List csr = true := by
          refine ih.2 cs ?_ csr hcsr
          have := treeWeight_pos c
          simp [weightList] at hcs
          omega
        rw [← hb]
        simp [allLe2List, h1, h2]

theorem binarize_of_binary_aux : ∀ n : Nat,
    (∀ t : Tree, treeWeight t ≤ n → allLe2 t = true → t.binarize = some t)
    ∧ (∀ cs : List Tree, weightList cs ≤ n → allLe2List cs = true →
        binarizeList cs = some cs) := by
  intro n
  induction n with
  | zero =>
    constructor
    · intro t ht
      have := treeWeight_pos t
      omega
    · intro cs hcs hl
      cases cs with
      | nil => exact binarizeList_eq_nil
      | cons c cs =>
        have h1 := treeWeight_pos c
        have h2 : weightList (c :: cs) = 1 + treeWeight c + weightList cs := rfl
        omega
  | succ n ih =>
    constructor
    · intro t ht hl
      cases t with
      | node i cs =>
        have hlen : cs.length ≤ 2 := by
          simp [allLe2] at hl
          exact hl.1
        have hcs : allLe2List cs = true := by
          simp [allLe2] at hl
          exact hl.2
        rw [binarize_eq_small i cs hlen]
        rw [ih.2 cs (by
          have : treeWeight (Tree.node i cs) = 1 + weightList cs := rfl
          omega) hcs]
        rfl
    · intro cs hcs hl
      cases cs with
      | nil => exact binarizeList_eq_nil
      | cons c cs =>
        have h1 : allLe2 c = true := by
          simp [allLe2List] at hl
          exact hl.1
        have h2 : allLe2List cs = true := by
          simp [allLe2List] at hl
          exact hl.2
        have hw : weightList (c :: cs) = 1 + treeWeight c + weightList cs := rfl
        rw [binarizeList_eq_cons]
        rw [ih.1 c (by omega) h1, ih.2 cs (by have := treeWeight_pos c; omega) h2]
        rfl

/-- C6: (1) after a successful `binarize`, every node has at most 2 children;
(2) a node with more than 2 children keeps its first child and gains a new
synthetic second child of branch length 0 that inherits the node's
attributes, location and alignment and holds the remaining children (both
children then being binarized recursively); (3) `binarize` on an
already-binary tree changes nothing; hence (4) `binarize` is idempotent. -/
theorem binarize_spec :
    (∀ t t' : Tree, t.binarize = some t' → allLe2 t' = true)
    ∧ (∀ (i : Info) (c0 c1 c2 : Tree) (rest : List Tree),
        Tree.binarize (.node i (c0 :: c1 :: c2 :: rest)) =
          ((Tree.node i (c0 :: c1 :: c2 :: rest)).location).bind (fun l =>
            (c0.binarize).bind (fun d0 =>
              ((Tree.node
                  { length := 0, name := [], attributes := i.attributes,
                    loc := l, alignment := alignmentOrDefault i.alignment }
                  (c1 :: c2 :: rest)).binarize).map (fun d1 =>
                Tree.node i [d0, d1]))))
    ∧ (∀ t : Tree, allLe2 t = true → t.binarize = some t)
    ∧ (∀ t t' : Tree, t.binarize = some t' → t'.binarize = some t') := by
  refine ⟨?_, binarize_eq_big, ?_, ?_⟩
  · intro t t' hb
    exact (binarize_le2_aux (treeWeight t)).1 t (le_refl _) t' hb
  · intro t hl
    exact (binarize_of_binary_aux (treeWeight t)).1 t (le_refl _) hl
  · intro t t' hb
    have hl := (binarize_le2_aux (treeWeight t)).1 t (le_refl _) t' hb
    exact (binarize_of_binary_aux (treeWeight t')).1 t' (le_refl _) hl

/-- A concrete leaf used in the C6 witness. -/
def binLeafA : Tree := .node ⟨1, ['a'], [], none, [0]⟩ []

/-- A concrete leaf used in the C6 witness. -/
def binLeafB : Tree := .node ⟨2, ['b'], [], none, [0]⟩ []

/-- A concrete leaf used in the C6 witness. -/
def binLeafC : Tree := .node ⟨3, ['c'], [], none, [0]⟩ []

/-- A concrete node with three children (not binary). -/
def binTriple : Tree := .node ⟨0, [], [], none, [0]⟩ [binLeafA, binLeafB, binLeafC]

/-- The synthetic node `binarize` inserts under `binTriple`. -/
def binSynth : Tree :=
  .node ⟨0, [], [], none, [0]⟩ [binLeafB, binLeafC]

/-- The result of binarizing `binTriple`. -/
def binTripleResult : Tree := .node ⟨0, [], [], none, [0]⟩ [binLeafA, binSynth]

/-- Witness for C6 on a concrete 3-child node. -/
theorem binarize_spec_witness :
    Tree.binarize binTriple = some binTripleResult
    ∧ allLe2 binTripleResult = true
    ∧ Tree.binarize binTripleResult = some binTripleResult := by
  have hb : Tree.binarize binTriple = some binTripleResult := by
    rw [show binTriple = Tree.node ⟨0, [], [], none, [0]⟩ [binLeafA, binLeafB, binLeafC]
      from rfl]
    rw [binarize_spec.2.1 ⟨0, [], [], none, [0]⟩ binLeafA binLeafB binLeafC []]
    rw [show (Tree.node ⟨0, [], [], none, [0]⟩ [binLeafA, binLeafB, binLeafC]).location
      = some none from rfl]
    rw [Option.some_bind]
    rw [binarize_spec.2.2.1 binLeafA (by decide)]
    rw [Option.some_bind]
    rw [show (Tree.node
        { length := 0, name := [], attributes := ([] : List (List Char × AttrVal)),
          loc := none, alignment := alignmentOrDefault [0] }
        [binLeafB, binLeafC]) = binSynth from rfl]
    rw [binarize_spec.2.2.1 binSynth (by decide)]
    rfl
  exact ⟨hb, binarize_spec.1 binTriple binTripleResult hb,
    binarize_spec.2.2.2 binTriple binTripleResult hb⟩

/- ### Identity view: `remove_nodes_by_name` and `copy_other_node` (C1, C3)

`NTree` carries each `Tree` object's identity (`id`, all ids distinct in a
well-formed state) and its stored `parent` pointer (`parentId`) as data, so
that the Python-level statement `c.parent is n` is expressible. -/

/-- The scalar fields of a `Tree` object including its identity and its
stored `parent` pointer. -/
structure NInfo where
  id : Nat
  length : ℚ
  name : List Char
  parentId : Option Nat
  attributes : List (List Char × AttrVal)
  loc : Option Loc
  alignment : List Int
deriving DecidableEq, Repr

/-- The `Tree` class, identity view. -/
inductive NTree where
  | node (info : NInfo) (children : List NTree)

def NTree.info : NTree → NInfo
  | .node i _ => i

def NTree.children : NTree → List NTree
  | .node _ cs => cs

def NTree.name (t : NTree) : List Char := t.info.name

def NTree.parentId (t : NTree) : Option Nat := t.info.parentId

/-- `child.parent = self` (as performed by `Tree.add_child` and
`Tree.__init__`). -/
def setParentId (pid : Nat) : NTree → NTree
  | .node i cs => .node { i with parentId := some pid } cs

/-- `c.length += delta`. -/
def addLen (delta : ℚ) : NTree → NTree
  | .node i cs => .node { i with length := i.length + delta } cs

/-- Outcome of `remove_nodes_by_name` on a non-root node, from the parent's
perspective: the node stays (possibly modified), removed itself from the
parent's child list, or collapsed and handed its sole child to the parent. -/
inductive RemOut where
  | kept (t : NTree)
  | dropped
  | replaced (c : NTree)

mutual

/-- `Tree.remove_nodes_by_name` at a non-root node: recursively filter the
children, then: an original leaf is left untouched; a node left childless
removes itself from its parent; a node left with exactly one child is
collapsed — the child absorbs the node's branch length and takes its place
in the parent's child list (its stored `parent` pointer is not updated). -/
def removeRec (names : List (List Char)) : NTree → RemOut
  | .node i cs =>
    let cs' := removeChildren names cs
    if cs.isEmpty then .kept (.node i cs)
    else
      match cs' with
      | [] => .dropped
      | [c] => .replaced (addLen i.length c)
      | _ => .kept (.node i cs')

def removeChildren (names : List (List Char)) : List NTree → List NTree
  | [] => []
  | c :: rest =>
    (if c.name ∈ names then []
     else
       match removeRec names c with
       | .kept c' => [c']
       | .dropped => []
       | .replaced cc => [cc]) ++ removeChildren names rest

end

/-- `Tree.copy_other_node`: copy the child's `name`, `length`, `parent`,
`attributes`, `alignment` and `_location` into the node (which keeps its
identity), then re-add the child's children via `add_child` (which does set
their `parent` pointers). -/
def copyOtherNode (i : NInfo) (c : NTree) : NTree :=
  .node
    { id := i.id, length := c.info.length, name := c.info.name,
      parentId := c.info.parentId, attributes := c.info.attributes,
      loc := c.info.loc, alignment := c.info.alignment }
    (c.children.map (setParentId i.id))

/-- `Tree.remove_nodes_by_name` called on the root.  A root that was already
a leaf returns unchanged; a root left childless dereferences
`self.parent.children` with `parent = None` (`AttributeError`, modelled as
`none`); a root left with one child is collapsed in place via
`copy_other_node` — after which the line `c.length += self.length` only
mutates the now-detached child object, so the absorbed length is lost. -/
def remove_nodes_by_name (names : List (List Char)) : NTree → Option NTree
  | .node i cs =>
    if cs.isEmpty then some (.node i cs)
    else
      match removeChildren names cs with
      | [] => none
      | [c] => some (copyOtherNode i c)
      | cs' => some (.node i cs')

mutual

/-- The invariant of C1: for every node `n` of the tree and every child
`c ∈ n.children`, the stored parent pointer of `c` is `n`. -/
def parentsConsistent : NTree → Bool
  | .node i cs => childrenConsistent i.id cs

def childrenConsistent (pid : Nat) : List NTree → Bool
  | [] => true
  | c :: cs => (c.parentId == some pid) && parentsConsistent c && childrenConsistent pid cs

end

/-- Leaf `a` of the C1 counterexample tree (child of the id-1 node). -/
def remLeafA : NTree := .node ⟨2, 1, ['a'], some 1, [], none, [0]⟩ []

/-- Leaf `b` of the C1 counterexample tree (to be removed). -/
def remLeafB : NTree := .node ⟨3, 1, ['b'], some 1, [], none, [0]⟩ []

/-- Internal node of the C1 counterexample tree. -/
def remNodeX : NTree := .node ⟨1, 1, [], some 0, [], none, [0]⟩ [remLeafA, remLeafB]

/-- Leaf `c` of the C1 counterexample tree (child of the root). -/
def remLeafC : NTree := .node ⟨4, 1, ['c'], some 0, [], none, [0]⟩ []

/-- Root of the C1 counterexample tree `((a:1,b:1):1,c:1):0`. -/
def remRoot : NTree := .node ⟨0, 0, [], none, [], none, [0]⟩ [remNodeX, remLeafC]

/-- C1 (code bug): on a parent-consistent tree, removing leaf `b` collapses
the single-child node `X` (id 1), whose child `a` is spliced into the root's
child list with its stored parent pointer still pointing at `X` — so the
resulting tree violates the two-way parent/child consistency invariant. -/
theorem remove_nodes_parent_cex :
    parentsConsistent remRoot = true
    ∧ remove_nodes_by_name [['b']] remRoot =
        some (.node ⟨0, 0, [], none, [], none, [0]⟩
          [.node ⟨2, 1 + 1, ['a'], some 1, [], none, [0]⟩ [], remLeafC])
    ∧ (remove_nodes_by_name [['b']] remRoot).map parentsConsistent = some false := by
  refine ⟨rfl, ?_, ?_⟩ <;> rfl

/-- Leaf `x` of the C3 counterexample tree. -/
def colLeafX : NTree := .node ⟨2, 1, ['x'], some 1, [], none, [0]⟩ []

/-- Leaf `y` of the C3 counterexample tree. -/
def colLeafY : NTree := .node ⟨3, 1, ['y'], some 1, [], none, [0]⟩ []

/-- Internal node of the C3 counterexample tree, with branch length 3. -/
def colNodeA : NTree := .node ⟨1, 3, [], some 0, [], none, [0]⟩ [colLeafX, colLeafY]

/-- Leaf `b` of the C3 counterexample tree (to be removed). -/
def colLeafB : NTree := .node ⟨4, 1, ['b'], some 0, [], none, [0]⟩ []

/-- Root of the C3 counterexample tree, with branch length 5. -/
def colRoot : NTree := .node ⟨0, 5, [], none, [], none, [0]⟩ [colNodeA, colLeafB]

/-- C3 (code bug, root case): removing `b` leaves the root with the single
child `A` (length 3); `copy_other_node` copies `A`'s contents into the root
(preserving id 0), but the subsequent `c.length += self.length` mutates the
detached child object, so the root ends with length 3 instead of the
claimed absorbed length 3 + 5 = 8 (and its parent pointer also becomes a
self-reference instead of `None`). -/
theorem root_collapse_cex :
    remove_nodes_by_name [['b']] colRoot =
      some (.node ⟨0, 3, [], some 0, [], none, [0]⟩
        [.node ⟨2, 1, ['x'], some 0, [], none, [0]⟩ [],
         .node ⟨3, 1, ['y'], some 0, [], none, [0]⟩ []])
    ∧ (remove_nodes_by_name [['b']] colRoot).map (fun t => t.info.length) = some 3
    ∧ (3 : ℚ) ≠ 5 + 3 := by
  refine ⟨rfl, rfl, by norm_num⟩

/- ### Decimal numerals (used by `get_hpd` key formatting, `float()` and
`str(float)`) -/

/-- The decimal digit character for `d ≤ 9`. -/
def digitChar : Nat → Char
  | 0 => '0' | 1 => '1' | 2 => '2' | 3 => '3' | 4 => '4'
  | 5 => '5' | 6 => '6' | 7 => '7' | 8 => '8' | _ => '9'

/-- Decimal digit characters of a natural number, with an explicit recursion
bound (`n / 10` shrinks, so any `fuel > n` gives the digits). -/
def natToDigitsAux : Nat → Nat → List Char
  | 0, _ => []
  | fuel + 1, n =>
    if n < 10 then [digitChar n]
    else natToDigitsAux fuel (n / 10) ++ [digitChar (n % 10)]

/-- Decimal digit characters of a natural number (Python `'%i' % n`,
`str(n)`). -/
def natToDigits (n : Nat) : List Char := natToDigitsAux (n + 1) n

/-- Whether a character is a decimal digit (`'0'` is code 48, `'9'` 57). -/
def isDigit (c : Char) : Bool := 48 ≤ c.toNat && c.toNat ≤ 57

/-- Numeric value of a list of digit characters (most significant first). -/
def digitsToNat (s : List Char) : Nat :=
  s.foldl (fun acc c => acc * 10 + (c.toNat - 48)) 0

theorem digitChar_toNat {d : Nat} (h : d ≤ 9) : (digitChar d).toNat = 48 + d := by
  interval_cases d <;> rfl

theorem digitChar_isDigit {d : Nat} (h : d ≤ 9) : isDigit (digitChar d) = true := by
  interval_cases d <;> rfl

theorem digitsToNat_append_digit (s : List Char) (c : Char) :
    digitsToNat (s ++ [c]) = digitsToNat s * 10 + (c.toNat - 48) := by
  simp [digitsToNat, List.foldl_append]

theorem natToDigitsAux_eval : ∀ (fuel n : Nat), n < fuel →
    digitsToNat (natToDigitsAux fuel n) = n := by
  intro fuel
  induction fuel with
  | zero => intro n h; omega
  | succ fuel ih =>
    intro n h
    rw [natToDigitsAux]
    by_cases h10 : n < 10
    · rw [if_pos h10]
      simp [digitsToNat]
      rw [digitChar_toNat (by omega)]
      omega
    · rw [if_neg h10]
      rw [digitsToNat_append_digit]
      rw [ih (n / 10) (by omega)]
      rw [digitChar_toNat (by omega)]
      omega

theorem natToDigits_eval (n : Nat) : digitsToNat (natToDigits n) = n :=
  natToDigitsAux_eval (n + 1) n (by omega)

theorem natToDigits_inj {a b : Nat} (h : natToDigits a = natToDigits b) : a = b := by
  have ha := natToDigits_eval a
  have hb := natToDigits_eval b
  rw [h] at ha
  omega

theorem natToDigitsAux_all_digits : ∀ (fuel n : Nat),
    ∀ c ∈ natToDigitsAux fuel n, isDigit c = true := by
  intro fuel
  induction fuel with
  | zero => intro n c hc; cases hc
  | succ fuel ih =>
    intro n c hc
    rw [natToDigitsAux] at hc
    by_cases h10 : n < 10
    · rw [if_pos h10] at hc
      simp at hc
      rw [hc]
      exact digitChar_isDigit (by omega)
    · rw [if_neg h10] at hc
      rw [List.mem_append] at hc
      cases hc with
      | inl h2 => exact ih (n / 10) c h2
      | inr h2 =>
        simp at h2
        rw [h2]
        exact digitChar_isDigit (by omega)

theorem natToDigits_all_digits (n : Nat) :
    ∀ c ∈ natToDigits n, isDigit c = true :=
  natToDigitsAux_all_digits (n + 1) n

theorem natToDigits_ne_nil (n : Nat) : natToDigits n ≠ [] := by
  unfold natToDigits natToDigitsAux
  by_cases h : n < 10
  · rw [if_pos h]
    simp
  · rw [if_neg h]
    simp

/- ### `float()` (Python built-in), modelled for finite decimal/exponent
numerals; `inf`/`nan`/underscore grouping are not modelled. -/

/-- Split a numeral at the first `e`/`E` (mantissa, optional exponent). -/
def splitExp : List Char → List Char × Option (List Char)
  | [] => ([], none)
  | c :: r =>
    if c = 'e' ∨ c = 'E' then ([], some r)
    else
      let (m, e) := splitExp r
      (c :: m, e)

/-- Split a numeral at the first `.` (integer part, optional fraction). -/
def splitDot : List Char → List Char × Option (List Char)
  | [] => ([], none)
  | c :: r =>
    if c = '.' then ([], some r)
    else
      let (m, e) := splitDot r
      (c :: m, e)

/-- Unsigned decimal mantissa: `digits`, `digits.`, `.digits` or
`digits.digits`. -/
def parseMantissa (m : List Char) : Option ℚ :=
  match splitDot m with
  | (ip, none) =>
    if ip ≠ [] ∧ ip.all isDigit then some ((digitsToNat ip : ℚ)) else none
  | (ip, some fp) =>
    if (ip ≠ [] ∨ fp ≠ []) ∧ ip.all isDigit ∧ fp.all isDigit then
      some ((digitsToNat ip : ℚ) + (digitsToNat fp : ℚ) / 10 ^ fp.length)
    else none

/-- Optionally signed decimal exponent. -/
def parseExpPart (e : List Char) : Option ℤ :=
  match e with
  | '-' :: r => if r ≠ [] ∧ r.all isDigit then some (-(digitsToNat r : ℤ)) else none
  | '+' :: r => if r ≠ [] ∧ r.all isDigit then some ((digitsToNat r : ℤ)) else none
  | r => if r ≠ [] ∧ r.all isDigit then some ((digitsToNat r : ℤ)) else none

/-- The mantissa/exponent part of `float()` after sign extraction. -/
def pyFloatCore (sgn : ℚ) (s1 : List Char) : Option ℚ :=
  match splitExp s1 with
  | (m, none) => (parseMantissa m).map (fun v => sgn * v)
  | (m, some e) =>
    (parseMantissa m).bind (fun v =>
      (parseExpPart e).map (fun ex => sgn * v * (10 : ℚ) ^ ex))

/-- Python `float(s)` on a (whitespace-free) decimal numeral string, as an
exact rational; `none` models the `ValueError` on malformed input. -/
def pyFloat (s : List Char) : Option ℚ :=
  let sgn : ℚ := if s.head? = some '-' then -1 else 1
  let s1 : List Char := if s.head? = some '-' ∨ s.head? = some '+' then s.tail else s
  pyFloatCore sgn s1

/-- `parse_value`: try `float(s)`, fall back to the raw string. -/
def parse_value (s : List Char) : AttrVal :=
  match pyFloat s with
  | some q => .num q
  | none => .txt s

/- ### `get_hpd` (C8) -/

/-- A shapely `Polygon` is modelled by its vertex list (the constructor
argument `zip(hpd_x, hpd_y)`). -/
def Polygon := List (ℚ × ℚ)
deriving DecidableEq, Repr

/-- Python `str.split(',')` (pieces may be empty). -/
def splitComma : List Char → List (List Char)
  | [] => [[]]
  | c :: rest =>
    if c = ',' then [] :: splitComma rest
    else
      match splitComma rest with
      | [] => [[c]]
      | p :: ps => (c :: p) :: ps

/-- The string content of an attribute value; a non-string value makes
`value[1:-1]` raise `TypeError` (`none`). -/
def asText : AttrVal → Option (List Char)
  | .txt s => some s
  | .num _ => none

/-- Python `s[1:-1]`. -/
def strip1 (s : List Char) : List Char := (s.drop 1).dropLast

/-- The attribute key
`'{location_key}{i_axis}_{p_hpd}%hpd_{i_polygon}'` of `get_hpd`. -/
def hpdKey (lk : List Char) (axis : Nat) (p : Nat) (i : Nat) : List Char :=
  lk ++ natToDigits axis ++ ['_'] ++ natToDigits p ++ "%hpd_".toList ++ natToDigits i

/-- One iteration of the `get_hpd` loop body: read the two axis values,
strip the enclosing brackets, split on commas, parse the floats and zip the
coordinates into a polygon (`none` models any exception raised). -/
def mkPoly (attrs : List (List Char × AttrVal)) (lk : List Char) (p i : Nat) :
    Option Polygon :=
  (dictGet attrs (hpdKey lk 1 p i)).bind (fun vx =>
    (dictGet attrs (hpdKey lk 2 p i)).bind (fun vy =>
      (asText vx).bind (fun sx =>
        (asText vy).bind (fun sy =>
          ((splitComma (strip1 sx)).mapM pyFloat).bind (fun xs =>
            ((splitComma (strip1 sy)).mapM pyFloat).map (fun ys =>
              (xs.zip ys : Polygon)))))))

/-- The `while hpd_key_x in attr_keys` loop of `get_hpd`, starting at
polygon index `i`.  The fuel argument only bounds the iteration count; the
loop provably stops before exhausting it (see `get_hpd_spec`). -/
def getHpdLoop (attrs : List (List Char × AttrVal)) (lk : List Char) (p : Nat) :
    Nat → Nat → Option (List Polygon)
  | 0, _ => none
  | fuel + 1, i =>
    if (dictGet attrs (hpdKey lk 1 p i)).isSome then
      (mkPoly attrs lk p i).bind (fun poly =>
        (getHpdLoop attrs lk p fuel (i + 1)).map (fun rest => poly :: rest))
    else some []

/-- `Tree.get_hpd`: scan polygon indices 1, 2, … while the axis-1 key
exists; an empty result is only logged as a warning, not an error. -/
def Tree.get_hpd (t : Tree) (p : Nat) (lk : List Char) : Option (List Polygon) :=
  getHpdLoop t.attributes lk p (t.attributes.length + 1) 1

theorem hpdKey_inj (lk : List Char) (axis p : Nat) {i j : Nat}
    (h : hpdKey lk axis p i = hpdKey lk axis p j) : i = j := by
  unfold hpdKey at h
  repeat rw [List.append_assoc] at h
  have h2 := List.append_cancel_left h
  have h3 := List.append_cancel_left h2
  have h4 := List.append_cancel_left h3
  have h5 := List.append_cancel_left h4
  have h6 := List.append_cancel_left h5
  exact natToDigits_inj h6

theorem getHpdLoop_spec (attrs : List (List Char × AttrVal)) (lk : List Char)
    (p : Nat) :
    ∀ (r fuel i : Nat), r < fuel →
      (∀ j, i ≤ j → j < i + r → (dictGet attrs (hpdKey lk 1 p j)).isSome = true) →
      dictGet attrs (hpdKey lk 1 p (i + r)) = none →
      getHpdLoop attrs lk p fuel i =
        (List.range' i r).mapM (fun j => mkPoly attrs lk p j) := by
  intro r
  induction r with
  | zero =>
    intro fuel i hfuel hpres hmiss
    match fuel, hfuel with
    | fuel + 1, _ =>
      rw [getHpdLoop]
      rw [if_neg (by rw [show i + 0 = i from rfl] at hmiss; rw [hmiss]; simp)]
      rfl
  | succ r ih =>
    intro fuel i hfuel hpres hmiss
    match fuel, hfuel with
    | fuel + 1, _ =>
      rw [getHpdLoop]
      rw [if_pos (hpres i (le_refl i) (by omega))]
      rw [ih fuel (i + 1) (by omega)
        (fun j hj1 hj2 => hpres j (by omega) (by omega))
        (by rw [show i + 1 + r = i + (r + 1) from by omega]; exact hmiss)]
      rw [List.range'_succ]
      rw [List.mapM_cons]
      cases mkPoly attrs lk p i with
      | none => rfl
      | some poly =>
        cases (List.range' (i + 1) r).mapM (fun j => mkPoly attrs lk p j) with
        | none => rfl
        | some rest => rfl

theorem dictGet_isSome_mem {attrs : List (List Char × AttrVal)} {k : List Char}
    (h : (dictGet attrs k).isSome = true) : k ∈ attrs.map Prod.fst := by
  unfold dictGet at h
  cases hf : List.find? (fun kv => kv.1 == k) attrs with
  | none => rw [hf] at h; simp at h
  | some kv =>
    have hmem := List.mem_of_find?_eq_some hf
    have hp := List.find?_some hf
    have hk : kv.1 = k := by
      exact beq_iff_eq.mp hp
    rw [← hk]
    exact List.mem_map_of_mem Prod.fst hmem

theorem hpd_count_le (attrs : List (List Char × AttrVal)) (lk : List Char)
    (p k : Nat)
    (hpres : ∀ j, 1 ≤ j → j ≤ k → (dictGet attrs (hpdKey lk 1 p j)).isSome = true) :
    k ≤ attrs.length := by
  have hnd : ((List.range' 1 k).map (hpdKey lk 1 p)).Nodup := by
    refine List.Nodup.map ?_ (List.nodup_range' 1 k)
    intro a b hab
    exact hpdKey_inj lk 1 p hab
  have hsub : ((List.range' 1 k).map (hpdKey lk 1 p)) ⊆ attrs.map Prod.fst := by
    intro x hx
    rw [List.mem_map] at hx
    obtain ⟨j, hj, hx⟩ := hx
    rw [List.mem_range'_1] at hj
    rw [← hx]
    exact dictGet_isSome_mem (hpres j hj.1 (by omega))
  have := (List.Nodup.subperm hnd hsub).length_le
  simp at this
  exact this

/-- C8: `get_hpd` collects polygons for indices `i = 1, 2, …` as long as the
axis-1 attribute key exists, stops at the first index with no matching key,
and returns the ordered sequence of polygons found for indices `1..k`; an
empty scan (`k = 0`) yields `some []` — a warning condition, not an error
(and the model is a pure function of the node, which is left unchanged). -/
theorem get_hpd_spec (t : Tree) (p : Nat) (lk : List Char) (k : Nat)
    (hpres : ∀ j, 1 ≤ j → j ≤ k →
      (dictGet t.attributes (hpdKey lk 1 p j)).isSome = true)
    (hmiss : dictGet t.attributes (hpdKey lk 1 p (k + 1)) = none) :
    t.get_hpd p lk = (List.range' 1 k).mapM (fun j => mkPoly t.attributes lk p j)
    ∧ (k = 0 → t.get_hpd p lk = some []) := by
  have hk : k ≤ t.attributes.length := hpd_count_le t.attributes lk p k hpres
  have h1 : t.get_hpd p lk =
      (List.range' 1 k).mapM (fun j => mkPoly t.attributes lk p j) := by
    unfold Tree.get_hpd
    refine getHpdLoop_spec t.attributes lk p k (t.attributes.length + 1) 1
      (by omega) (fun j hj1 hj2 => hpres j hj1 (by omega)) ?_
    rw [show 1 + k = k + 1 from by omega]
    exact hmiss
  refine ⟨h1, fun hk0 => ?_⟩
  rw [h1, hk0]
  rfl

/-- Concrete attribute list for the C8 witness: one HPD polygon pair at
`p = 80`, no key for polygon index 2. -/
def hpdAttrs : List (List Char × AttrVal) :=
  [("location1_80%hpd_1".toList, .txt "{0.0,1.0,2.0}".toList),
   ("location2_80%hpd_1".toList, .txt "{0.0,1.0,0.5}".toList)]

/-- Concrete node carrying `hpdAttrs`. -/
def hpdNode : Tree := .node ⟨0, [], hpdAttrs, none, [0]⟩ []

/-- Witness for C8: the scan on `hpdNode` finds exactly the polygon with
index 1 and stops at index 2. -/
theorem get_hpd_spec_witness :
    hpdNode.get_hpd 80 "location".toList =
      (List.range' 1 1).mapM (fun j => mkPoly hpdNode.attributes "location".toList 80 j) := by
  refine (get_hpd_spec hpdNode 80 "location".toList 1 ?_ (by rfl)).1
  intro j h1 h2
  interval_cases j
  rfl

/- ### `parse_length` (C7) -/

/-- Modelled from the spec: `find` comes from `src/util.py`, which is not in
the sources; per the spec's description of name and numeral scanning
(`min(find(s, '['), find(s, ':'))`, "the numeral runs up to the next `,` or
`)`"), it returns the index of the first occurrence of the character in the
string, or `len(s)` when the character does not occur. -/
def find (s : List Char) (c : Char) : Nat :=
  match s with
  | [] => 0
  | d :: rest => if d = c then 0 else find rest c + 1

/-- `parse_length`: a string starting with `;` yields length `0.0` without
consuming input; otherwise a leading `:` is mandatory (`none` models the
failed assertion, including on the empty string) and the substring up to the
next `,` or `)` is parsed by `float` (`none` models the `ValueError` on a
malformed numeral). -/
def parse_length (s : List Char) : Option (ℚ × List Char) :=
  match s with
  | ';' :: rest => some (0, ';' :: rest)
  | ':' :: t =>
    let e := min (find t ',') (find t ')')
    (pyFloat (t.take e)).map (fun q => (q, t.drop e))
  | _ => none

/-- C7: `parse_length` on `';' :: …` returns `0.0` without consuming input;
on input that starts with neither `;` nor `:` (or is empty) it fails
fatally; and on `':' :: t` it parses, as the length, the substring of `t`
running up to the next `,` or `)`, leaving the rest unconsumed. -/
theorem parse_length_spec (s t : List Char) (c : Char) :
    parse_length (';' :: s) = some (0, ';' :: s)
    ∧ (c ≠ ';' → c ≠ ':' → parse_length (c :: t) = none)
    ∧ parse_length [] = none
    ∧ parse_length (':' :: t) =
        (pyFloat (t.take (min (find t ',') (find t ')')))).map
          (fun q => (q, t.drop (min (find t ',') (find t ')')))) := by
  refine ⟨rfl, ?_, rfl, rfl⟩
  intro h1 h2
  rw [parse_length.eq_def]
  split
  · rename_i rest heq
    injection heq with hc _
    exact absurd hc h1
  · rename_i t2 heq
    injection heq with hc _
    exact absurd hc h2
  · rfl

/-- Witness for C7: parsing `":3.5)"` consumes the numeral `3.5` (value
`7/2`) and leaves `")"`. -/
theorem parse_length_spec_witness :
    parse_length (':' :: '3' :: '.' :: '5' :: ')' :: [])
      = some ((7 : ℚ)/2, [')'])
    ∧ parse_length (';' :: []) = some (0, [';'])
    ∧ parse_length ['x'] = none := by
  refine ⟨?_, (parse_length_spec [] [] 'x').1, (parse_length_spec [] [] 'x').2.1
    (by decide) (by decide)⟩
  rw [(parse_length_spec [] ('3' :: '.' :: '5' :: ')' :: []) 'x').2.2.2]
  rw [show ((('3' :: '.' :: '5' :: ')' :: []).take
      (min (find ('3' :: '.' :: '5' :: ')' :: []) ',')
           (find ('3' :: '.' :: '5' :: ')' :: []) ')')))) = ['3', '.', '5'] from rfl]
  rw [show ((('3' :: '.' :: '5' :: ')' :: []).drop
      (min (find ('3' :: '.' :: '5' :: ')' :: []) ',')
           (find ('3' :: '.' :: '5' :: ')' :: []) ')')))) = [')'] from rfl]
  rw [show pyFloat ['3', '.', '5']
      = some (1 * (((3 : ℕ) : ℚ) + ((5 : ℕ) : ℚ) / 10 ^ (1 : ℕ))) from rfl]
  rw [show (1 * (((3 : ℕ) : ℚ) + ((5 : ℕ) : ℚ) / 10 ^ (1 : ℕ))) = (7 : ℚ)/2 from by
    norm_num]
  rfl

/- ### `str(float)` for finite-decimal rationals (C5) -/

/-- The least `k ≤ d` with `d ∣ 10^k`, when one exists (it does whenever `d`
is the denominator of a Python float, floats being dyadic rationals). -/
def findPow10 (d : Nat) : Option Nat :=
  (List.range (d + 1)).find? (fun k => decide (d ∣ 10 ^ k))

/-- A length value representable as a (nonnegative) Python float: its exact
value is a nonnegative finite decimal. -/
def wfLen (q : ℚ) : Bool := decide (0 ≤ q.num) && (findPow10 q.den).isSome

/-- `str(length)` for a nonnegative finite-decimal rational: the exact
decimal numeral `int.frac` (at least one fractional digit, as Python prints
floats); total function, garbage (`[]`) outside its intended domain.
Python's `repr` shortest-round-trip and scientific notation for extreme
magnitudes are not modelled — the model prints the exact decimal expansion,
which `float()` accepts. -/
def ratToDec (q : ℚ) : List Char :=
  match findPow10 q.den with
  | none => []
  | some k =>
    let m := q.num.toNat * (10 ^ k / q.den)
    let frac := natToDigits (m % 10 ^ k)
    natToDigits (m / 10 ^ k) ++ '.' :: (List.replicate (k - frac.length) '0' ++ frac)

theorem natToDigitsAux_fuel_eq : ∀ (f1 : Nat), ∀ (f2 n : Nat), n < f1 → n < f2 →
    natToDigitsAux f1 n = natToDigitsAux f2 n := by
  intro f1
  induction f1 with
  | zero => intro f2 n h1 h2; omega
  | succ f1 ih =>
    intro f2 n h1 h2
    match f2, h2 with
    | f2 + 1, _ =>
      rw [natToDigitsAux, natToDigitsAux]
      by_cases h10 : n < 10
      · rw [if_pos h10, if_pos h10]
      · rw [if_neg h10, if_neg h10]
        rw [ih f2 (n / 10) (by omega) (by omega)]

/-- The recursive unfolding of `natToDigits`. -/
theorem natToDigits_unfold (n : Nat) :
    natToDigits n =
      if n < 10 then [digitChar n]
      else natToDigits (n / 10) ++ [digitChar (n % 10)] := by
  unfold natToDigits
  rw [natToDigitsAux]
  by_cases h10 : n < 10
  · rw [if_pos h10, if_pos h10]
  · rw [if_neg h10, if_neg h10]
    rw [natToDigitsAux_fuel_eq n (n / 10 + 1) (n / 10) (by omega) (by omega)]

theorem natToDigits_length_le (k : Nat) : ∀ n, n < 10 ^ k → 1 ≤ k →
    (natToDigits n).length ≤ k := by
  induction k with
  | zero => intro n h1 h2; omega
  | succ k ih =>
    intro n h1 h2
    rw [natToDigits_unfold]
    by_cases h10 : n < 10
    · rw [if_pos h10]
      simp
    · rw [if_neg h10]
      rw [List.length_append]
      have hk1 : 1 ≤ k := by
        by_contra hk
        have : k = 0 := by omega
        rw [this] at h1
        simp at h1
        omega
      have := ih (n / 10) (by
        have h10k : 10 ^ (k + 1) = 10 ^ k * 10 := by ring
        rw [h10k] at h1
        omega) hk1
      simp
      omega

theorem digitsToNat_replicate_zero (j : Nat) (ds : List Char) :
    digitsToNat (List.replicate j '0' ++ ds) = digitsToNat ds := by
  induction j with
  | zero => rfl
  | succ j ih =>
    rw [List.replicate_succ]
    show digitsToNat ('0' :: (List.replicate j '0' ++ ds)) = digitsToNat ds
    unfold digitsToNat at ih ⊢
    simp only [List.foldl_cons]
    rw [show (0 * 10 + ('0'.toNat - 48)) = 0 from rfl]
    exact ih

theorem isDigit_ne {c : Char} (h : isDigit c = true) {d : Char}
    (hd : d.toNat < 48 ∨ 57 < d.toNat) : c ≠ d := by
  intro heq
  subst heq
  unfold isDigit at h
  simp at h
  omega

theorem find_append_of_not_mem (s r : List Char) (c : Char) (h : c ∉ s) :
    find (s ++ r) c = s.length + find r c := by
  induction s with
  | nil => simp [find]
  | cons d rest ih =>
    simp only [List.cons_append, find, List.append_eq]
    rw [if_neg (by intro heq; exact h (by rw [heq]; exact List.mem_cons_self _ _))]
    rw [ih (fun hmem => h (List.mem_cons_of_mem d hmem))]
    simp only [List.length_cons]
    omega

theorem find_head (s : List Char) (c : Char) : find (c :: s) c = 0 := by
  simp [find]

theorem find_nil (c : Char) : find [] c = 0 := rfl

theorem splitExp_of_no_e (s : List Char) (h : ∀ c ∈ s, c ≠ 'e' ∧ c ≠ 'E') :
    splitExp s = (s, none) := by
  induction s with
  | nil => rfl
  | cons d rest ih =>
    rw [splitExp]
    rw [if_neg (by
      have := h d (List.mem_cons_self _ _)
      intro hor
      cases hor with
      | inl h1 => exact this.1 h1
      | inr h2 => exact this.2 h2)]
    rw [ih (fun c hc => h c (List.mem_cons_of_mem d hc))]

theorem splitDot_append (a b : List Char) (h : ∀ c ∈ a, c ≠ '.') :
    splitDot (a ++ '.' :: b) = (a, some b) := by
  induction a with
  | nil => simp [splitDot]
  | cons d rest ih =>
    simp only [List.cons_append]
    rw [splitDot]
    rw [if_neg (h d (List.mem_cons_self _ _))]
    rw [ih (fun c hc => h c (List.mem_cons_of_mem d hc))]

theorem replicate_zero_all_digits (j : Nat) :
    ∀ c ∈ List.replicate j '0', isDigit c = true := by
  intro c hc
  rw [List.eq_of_mem_replicate hc]
  rfl

/-- Every character of `ratToDec q` is a digit or the decimal point. -/
theorem ratToDec_chars (q : ℚ) (k : Nat) (hf : findPow10 q.den = some k) :
    ∀ c ∈ ratToDec q, isDigit c = true ∨ c = '.' := by
  unfold ratToDec
  rw [hf]
  intro c hc
  simp only [List.mem_append, List.mem_cons] at hc
  rcases hc with h1 | h2 | h3 | h4
  · exact Or.inl (natToDigits_all_digits _ c h1)
  · exact Or.inr h2
  · exact Or.inl (replicate_zero_all_digits _ c h3)
  · exact Or.inl (natToDigits_all_digits _ c h4)

/-- The unfolding of `ratToDec` when the denominator divides `10^k`. -/
theorem ratToDec_eq (q : ℚ) (k : Nat) (hf : findPow10 q.den = some k) :
    ratToDec q =
      natToDigits (q.num.toNat * (10 ^ k / q.den) / 10 ^ k) ++ '.' ::
        (List.replicate
            (k - (natToDigits (q.num.toNat * (10 ^ k / q.den) % 10 ^ k)).length) '0'
          ++ natToDigits (q.num.toNat * (10 ^ k / q.den) % 10 ^ k)) := by
  unfold ratToDec
  rw [hf]

/-- `ratToDec q` starts with a digit. -/
theorem ratToDec_head (q : ℚ) (k : Nat) (hf : findPow10 q.den = some k) :
    ∃ d t', ratToDec q = d :: t' ∧ isDigit d = true := by
  rw [ratToDec_eq q k hf]
  have hne := natToDigits_ne_nil (q.num.toNat * (10 ^ k / q.den) / 10 ^ k)
  cases hd : natToDigits (q.num.toNat * (10 ^ k / q.den) / 10 ^ k) with
  | nil => exact absurd hd hne
  | cons d t0 =>
    refine ⟨d, t0 ++ '.' ::
      (List.replicate
          (k - (natToDigits (q.num.toNat * (10 ^ k / q.den) % 10 ^ k)).length) '0'
        ++ natToDigits (q.num.toNat * (10 ^ k / q.den) % 10 ^ k)), ?_, ?_⟩
    · simp
    · exact natToDigits_all_digits _ d (by rw [hd]; exact List.mem_cons_self _ _)

theorem pyFloat_of_head (s : List Char) (h1 : s.head? ≠ some '-')
    (h2 : s.head? ≠ some '+') : pyFloat s = pyFloatCore 1 s := by
  unfold pyFloat
  rw [if_neg h1, if_neg (by
    intro hor
    cases hor with
    | inl ha => exact h1 ha
    | inr hb => exact h2 hb)]

theorem pyFloatCore_noexp (sgn : ℚ) (s : List Char) (h : splitExp s = (s, none)) :
    pyFloatCore sgn s = (parseMantissa s).map (fun v => sgn * v) := by
  unfold pyFloatCore
  rw [h]

theorem parseMantissa_eval (ip fp : List Char) (hip : ip ≠ [])
    (hipd : ∀ c ∈ ip, isDigit c = true) (hfpd : ∀ c ∈ fp, isDigit c = true) :
    parseMantissa (ip ++ '.' :: fp) =
      some ((digitsToNat ip : ℚ) + (digitsToNat fp : ℚ) / 10 ^ fp.length) := by
  unfold parseMantissa
  rw [splitDot_append _ _ (fun c hc => isDigit_ne (hipd c hc) (by decide))]
  change (if (ip ≠ [] ∨ fp ≠ []) ∧ ip.all isDigit = true ∧ fp.all isDigit = true then
      some ((digitsToNat ip : ℚ) + (digitsToNat fp : ℚ) / 10 ^ fp.length)
    else none) = _
  rw [if_pos (by
    refine ⟨Or.inl hip, ?_, ?_⟩
    · rw [List.all_eq_true]
      exact hipd
    · rw [List.all_eq_true]
      exact hfpd)]

/-- `float(str(q)) = q` for a nonnegative finite-decimal rational. -/
theorem pyFloat_ratToDec (q : ℚ) (h0 : 0 ≤ q.num) (k : Nat)
    (hf : findPow10 q.den = some k) : pyFloat (ratToDec q) = some q := by
  have hdvd : q.den ∣ 10 ^ k := by
    have := List.find?_some hf
    exact of_decide_eq_true this
  set m := q.num.toNat * (10 ^ k / q.den) with hm
  set fd := natToDigits (m % 10 ^ k) with hfd
  set fpad := List.replicate (k - fd.length) '0' ++ fd with hfpad
  have hrd : ratToDec q = natToDigits (m / 10 ^ k) ++ '.' :: fpad :=
    ratToDec_eq q k hf
  have hden0 : (q.den : ℚ) ≠ 0 := by
    exact_mod_cast q.den_nz
  have htn : ((q.num.toNat : ℕ) : ℚ) = (q.num : ℚ) := by
    exact_mod_cast congrArg (fun z : ℤ => (z : ℚ)) (Int.toNat_of_nonneg h0)
  have hdiv : ((10 ^ k / q.den : ℕ) : ℚ) = (10 ^ k : ℚ) / (q.den : ℚ) := by
    rw [Nat.cast_div hdvd hden0]
    norm_num
  have hmq : (m : ℚ) = q * 10 ^ k := by
    rw [hm, Nat.cast_mul, htn, hdiv]
    rw [show (q.num : ℚ) * ((10 ^ k : ℚ) / (q.den : ℚ))
        = ((q.num : ℚ) / (q.den : ℚ)) * 10 ^ k from by ring]
    rw [Rat.num_div_den]
  have hfd_digits : ∀ c ∈ fpad, isDigit c = true := by
    intro c hc
    rw [hfpad] at hc
    rw [List.mem_append] at hc
    cases hc with
    | inl hc1 => exact replicate_zero_all_digits _ c hc1
    | inr hc2 => exact natToDigits_all_digits _ c hc2
  have hip_digits := natToDigits_all_digits (m / 10 ^ k)
  obtain ⟨d, t0, hcons, hddig⟩ := ratToDec_head q k hf
  rw [pyFloat_of_head _ (by
      rw [hcons]
      simp only [List.head?_cons, ne_eq, Option.some.injEq]
      exact isDigit_ne hddig (by decide))
    (by
      rw [hcons]
      simp only [List.head?_cons, ne_eq, Option.some.injEq]
      exact isDigit_ne hddig (by decide))]
  rw [pyFloatCore_noexp 1 _ (splitExp_of_no_e _ (by
    intro c hc
    rcases ratToDec_chars q k hf c hc with hdig | hdot
    · exact ⟨isDigit_ne hdig (by decide), isDigit_ne hdig (by decide)⟩
    · rw [hdot]
      exact ⟨by decide, by decide⟩))]
  rw [hrd]
  rw [parseMantissa_eval _ _ (natToDigits_ne_nil _) hip_digits hfd_digits]
  simp only [Option.map_some']
  congr 1
  rw [natToDigits_eval]
  rw [hfpad, digitsToNat_replicate_zero, hfd, natToDigits_eval]
  have hpow0 : ((10 : ℚ) ^ k) ≠ 0 := by positivity
  by_cases hk : k = 0
  · subst hk
    simp only [pow_zero, Nat.pow_zero, Nat.mod_one, Nat.div_one]
    rw [show ((0 : ℕ) : ℚ) = 0 from rfl]
    rw [hmq]
    ring
  · have hk1 : 1 ≤ k := by omega
    have hlt : m % 10 ^ k < 10 ^ k := Nat.mod_lt _ (by positivity)
    have hlen : (List.replicate (k - fd.length) '0' ++ fd).length = k := by
      rw [List.length_append, List.length_replicate]
      have := natToDigits_length_le k (m % 10 ^ k) hlt hk1
      rw [← hfd] at this
      omega
    rw [hlen]
    have hdm := Nat.div_add_mod m (10 ^ k)
    have hdmq : (10 : ℚ) ^ k * ((m / 10 ^ k : ℕ) : ℚ) + ((m % 10 ^ k : ℕ) : ℚ)
        = (m : ℚ) := by
      exact_mod_cast congrArg (fun x : ℕ => (x : ℚ)) hdm
    rw [show (1 : ℚ) * (((m / 10 ^ k : ℕ) : ℚ) + ((m % 10 ^ k : ℕ) : ℚ) / 10 ^ k)
        = (((10 : ℚ) ^ k * ((m / 10 ^ k : ℕ) : ℚ) + ((m % 10 ^ k : ℕ) : ℚ)) / 10 ^ k)
      from by field_simp; ring]
    rw [hdmq, hmq]
    field_simp

/- ### Serializer `to_newick` and parser `parse_tree` (C5) -/

/-- `str(float)`: sign handling on top of `ratToDec`. -/
def floatStr (q : ℚ) : List Char :=
  if q < 0 then '-' :: ratToDec (-q) else ratToDec q

/-- `'%s' % value` for an attribute value. -/
def attrValStr : AttrVal → List Char
  | .num q => floatStr q
  | .txt s => s

/-- `','.join('%s=%s' % kv for kv in attributes.items())`. -/
def attrsJoin : List (List Char × AttrVal) → List Char
  | [] => []
  | [(k, v)] => k ++ '=' :: attrValStr v
  | (k, v) :: rest => k ++ '=' :: attrValStr v ++ ',' :: attrsJoin rest

mutual

/-- `Tree.to_newick`: `(children)` or the name as the core, an optional
`[&k=v,…]` attribute block, then `:length`. -/
def Tree.to_newick (wa : Bool) : Tree → List Char
  | .node i cs =>
    (if cs.isEmpty then i.name else '(' :: newickChildren wa cs ++ [')'])
    ++ (if i.attributes ≠ [] ∧ wa = true then
          '[' :: '&' :: attrsJoin i.attributes ++ [']']
        else [])
    ++ ':' :: floatStr i.length

/-- `','.join(c.to_newick() for c in children)`. -/
def newickChildren (wa : Bool) : List Tree → List Char
  | [] => []
  | [c] => c.to_newick wa
  | c :: cs => c.to_newick wa ++ ',' :: newickChildren wa cs

end

/-- Python `str.partition`: `(before, found?, after)` at the first
occurrence of `c` (whole string and empty tails when absent). -/
def pyPartition (s : List Char) (c : Char) : List Char × Bool × List Char :=
  if find s c < s.length then (s.take (find s c), true, s.drop (find s c + 1))
  else (s, false, [])

/-- Python `str.rpartition`: `(before, found?, after)` at the last
occurrence of `c` (empty head parts when absent). -/
def pyRPartition (s : List Char) (c : Char) : List Char × Bool × List Char :=
  let r := find s.reverse c
  if r < s.length then (s.take (s.length - 1 - r), true, s.drop (s.length - r))
  else ([], false, s)

/-- Python `dict` assignment `attrs[k] = v` on the insertion-ordered
association list. -/
def dictSet (attrs : List (List Char × AttrVal)) (k : List Char) (v : AttrVal) :
    List (List Char × AttrVal) :=
  if (attrs.find? (fun kv => kv.1 == k)).isSome then
    attrs.map (fun kv => if kv.1 == k then (k, v) else kv)
  else attrs ++ [(k, v)]

/-- The `while find(s, '=') < find(s, ']')` loop of `parse_attributes`;
each iteration consumes past an `=`, so `len(s) + 1` fuel suffices. -/
def parseAttrsLoop : Nat → List Char → List Char →
    List (List Char × AttrVal) → List (List Char × AttrVal) × List Char
  | 0, _, s, attrs => (attrs, s)
  | fuel + 1, k1, s, attrs =>
    if find s '=' < find s ']' then
      let p1 := pyPartition s '='
      let p2 := pyRPartition p1.1 ','
      parseAttrsLoop fuel p2.2.2 p1.2.2 (dictSet attrs k1 (parse_value p2.1))
    else
      let p := pyPartition s ']'
      (dictSet attrs k1 (parse_value p.1), p.2.2)

/-- `parse_attributes`: `{}` unless the string starts with `[&`; otherwise
split key/value pairs on `=` with the right-partition-on-`,` strategy. -/
def parse_attributes (s : List Char) : List (List Char × AttrVal) × List Char :=
  if s.head? = some '[' ∧ s.tail.head? = some '&' then
    let p := pyPartition s.tail.tail '='
    parseAttrsLoop (s.tail.tail.length + 1) p.1 p.2.2 []
  else ([], s)

/-- The tail of `parse_tree` after name and children are known: parse the
attribute block and the length, build the node (`Tree.__init__` defaults:
empty attributes for `None`, alignment `[0]`), then resolve `_location`
from the attributes and apply `swap_xy` (which raises on a `None`
location). -/
def finishNode (wa swap : Bool) (lk : List Char) (children : List Tree)
    (name : List Char) (s : List Char) : Option (Tree × List Char) :=
  let ar := if wa then parse_attributes s else ([], s)
  (parse_length ar.2).bind (fun lr =>
    ((Tree.node ⟨lr.1, name, ar.1, none, [0]⟩ children).get_location_from_attributes
        lk).bind (fun lopt =>
      if swap then
        match lopt with
        | none => none
        | some l =>
          some (.node ⟨lr.1, name, ar.1, some (l.2, l.1), [0]⟩ children, lr.2)
      else some (.node ⟨lr.1, name, ar.1, lopt, [0]⟩ children, lr.2)))

mutual

/-- `parse_tree` (fuelled): an internal node `(child,…)name?attrs?:length`
or a leaf `name?attrs?:length`; returns the node and the unparsed suffix. -/
def parseTreeF (wa swap : Bool) (lk : List Char) : Nat → List Char →
    Option (Tree × List Char)
  | 0, _ => none
  | fuel + 1, s =>
    if s.head? = some '(' then
      (parseChildrenF wa swap lk fuel [] s).bind (fun cr =>
        match cr.2 with
        | ')' :: s2 =>
          match s2 with
          | [] => none
          | c :: _ =>
            if c ≠ ':' ∧ c ≠ '[' ∧ c ≠ ')' ∧ c ≠ ';' then
              finishNode wa swap lk cr.1
                (s2.take (if wa then min (find s2 '[') (find s2 ':') else find s2 ':'))
                (s2.drop (if wa then min (find s2 '[') (find s2 ':') else find s2 ':'))
            else finishNode wa swap lk cr.1 [] s2
        | _ => none)
    else
      finishNode wa swap lk []
        (s.take (if wa then min (find s '[') (find s ':') else find s ':'))
        (s.drop (if wa then min (find s '[') (find s ':') else find s ':'))

/-- The `while s.startswith('(') or s.startswith(',')` children loop of
`parse_tree`: consume the separator, parse one child, continue on the
returned suffix. -/
def parseChildrenF (wa swap : Bool) (lk : List Char) : Nat → List Tree →
    List Char → Option (List Tree × List Char)
  | 0, _, _ => none
  | fuel + 1, acc, s =>
    match s with
    | c :: rest =>
      if c = '(' ∨ c = ',' then
        (parseTreeF wa swap lk fuel rest).bind (fun cr =>
          parseChildrenF wa swap lk fuel (acc ++ [cr.1]) cr.2)
      else some (acc, s)
    | [] => some (acc, s)

end

/-- `parse_tree`: the fuel `2·len(s) + 2` bounds the recursion depth, which
Python's recursion never exceeds on inputs it terminates on (each two fuel
steps consume at least one input character). -/
def parse_tree (s : List Char) (wa swap : Bool) (lk : List Char) :
    Option (Tree × List Char) :=
  parseTreeF wa swap lk (2 * s.length + 2) s

/- ### The round-trip development (C5) -/

/-- Characters that play a syntactic role in the Newick grammar; a name
made of other characters survives serialization and re-parsing. -/
def specialChars : List Char := ['(', ')', ',', ':', ';', '[', ']', '&', '=']

/-- A name character that is not a Newick delimiter. -/
def goodChar (c : Char) : Bool := !(specialChars.contains c)

mutual

/-- Well-formedness for the round-trip: every name is delimiter-free and
every branch length is a nonnegative finite decimal (every Python float
is). -/
def wfTree : Tree → Bool
  | .node i cs => i.name.all goodChar && wfLen i.length && wfList cs

def wfList : List Tree → Bool
  | [] => true
  | c :: cs => wfTree c && wfList cs

end

mutual

/-- What `parse_tree (to_newick t (write_attributes := false))` rebuilds:
same topology and lengths, leaf names kept, internal names dropped (the
serializer does not write them), attributes empty, location unset,
alignment the default `[0]`. -/
def stripTree : Tree → Tree
  | .node i cs =>
    .node ⟨i.length, if cs.isEmpty then i.name else [], [], none, [0]⟩ (stripList cs)

def stripList : List Tree → List Tree
  | [] => []
  | c :: cs => stripTree c :: stripList cs

end

/-- Admissible unparsed suffixes during the round-trip: nothing, or a
continuation starting with `,` or `)`. -/
def restOk (rest : List Char) : Prop :=
  rest = [] ∨ rest.head? = some ',' ∨ rest.head? = some ')'

theorem find_restOk_zero (rest : List Char) (h : restOk rest) :
    min (find rest ',') (find rest ')') = 0 := by
  rcases h with h1 | h2 | h3
  · rw [h1]
    rfl
  · cases rest with
    | nil => cases h2
    | cons c r =>
      simp only [List.head?_cons, Option.some.injEq] at h2
      rw [h2, find_head]
      simp
  · cases rest with
    | nil => cases h3
    | cons c r =>
      simp only [List.head?_cons, Option.some.injEq] at h3
      rw [h3, find_head]
      simp

theorem ratToDec_no_comma_paren (q : ℚ) (k : Nat) (hf : findPow10 q.den = some k) :
    (',' ∉ ratToDec q) ∧ (')' ∉ ratToDec q) := by
  constructor
  · intro hmem
    rcases ratToDec_chars q k hf ',' hmem with hd | hd
    · exact absurd rfl (isDigit_ne hd (by decide))
    · cases hd
  · intro hmem
    rcases ratToDec_chars q k hf ')' hmem with hd | hd
    · exact absurd rfl (isDigit_ne hd (by decide))
    · cases hd

theorem wfLen_elim {q : ℚ} (h : wfLen q = true) :
    0 ≤ q.num ∧ ∃ k, findPow10 q.den = some k := by
  unfold wfLen at h
  simp only [Bool.and_eq_true, decide_eq_true_eq, Option.isSome_iff_exists] at h
  exact ⟨h.1, h.2⟩

/-- `str(float)` of a nonnegative length has no sign prefix. -/
theorem floatStr_nonneg (q : ℚ) (h0 : 0 ≤ q.num) : floatStr q = ratToDec q := by
  unfold floatStr
  rw [if_neg (not_lt.mpr (Rat.num_nonneg.mp h0))]

/-- `parse_length` consumes exactly the serialized length. -/
theorem parse_length_floatStr (q : ℚ) (hwf : wfLen q = true) (rest : List Char)
    (hr : restOk rest) :
    parse_length (':' :: (floatStr q ++ rest)) = some (q, rest) := by
  obtain ⟨h0, k, hk⟩ := wfLen_elim hwf
  rw [floatStr_nonneg q h0]
  obtain ⟨hnc, hnp⟩ := ratToDec_no_comma_paren q k hk
  rw [parse_length]
  rw [find_append_of_not_mem _ _ _ hnc, find_append_of_not_mem _ _ _ hnp]
  rw [Nat.add_min_add_left, find_restOk_zero rest hr, Nat.add_zero]
  rw [List.take_left, List.drop_left]
  rw [pyFloat_ratToDec q h0 k hk]
  rfl

/-- The leaf-name scan stops exactly at the end of a delimiter-free name. -/
theorem name_stop_eq (name rest : List Char) (h : name.all goodChar = true) :
    min (find (name ++ ':' :: rest) '[') (find (name ++ ':' :: rest) ':')
      = name.length := by
  have hbr : '[' ∉ name := by
    intro hmem
    exact absurd (List.all_eq_true.mp h '[' hmem) (by decide)
  have hco : ':' ∉ name := by
    intro hmem
    exact absurd (List.all_eq_true.mp h ':' hmem) (by decide)
  rw [find_append_of_not_mem _ _ _ hbr,
      find_append_of_not_mem _ _ _ hco]
  rw [find_head]
  omega

/-- `parse_attributes` on input that does not open an attribute block. -/
theorem parse_attributes_skip (s : List Char)
    (h : s.head? ≠ some '[') : parse_attributes s = ([], s) := by
  unfold parse_attributes
  rw [if_neg (fun hand => h hand.1)]

/-- `finishNode` on a serialized `:length` tail (no attributes follow). -/
theorem finishNode_ser (lk : List Char) (children : List Tree)
    (name : List Char) (q : ℚ) (hq : wfLen q = true) (rest : List Char)
    (hr : restOk rest) :
    finishNode true false lk children name (':' :: (floatStr q ++ rest))
      = some (.node ⟨q, name, [], none, [0]⟩ children, rest) := by
  unfold finishNode
  rw [if_pos rfl]
  rw [parse_attributes_skip _ (by intro heq; cases heq)]
  simp only []
  rw [parse_length_floatStr q hq rest hr]
  rw [Option.some_bind]
  rw [show (Tree.node ⟨q, name, [], none, [0]⟩ children).get_location_from_attributes lk
      = some none from by
    unfold Tree.get_location_from_attributes dictGet
    rfl]
  rfl

theorem parseChildrenF_step (wa swap : Bool) (lk : List Char) (fuel : Nat)
    (acc : List Tree) (c : Char) (rest : List Char) (h : c = '(' ∨ c = ',') :
    parseChildrenF wa swap lk (fuel + 1) acc (c :: rest) =
      (parseTreeF wa swap lk fuel rest).bind (fun cr =>
        parseChildrenF wa swap lk fuel (acc ++ [cr.1]) cr.2) := by
  rw [parseChildrenF]
  rw [if_pos h]

theorem parseChildrenF_stop (wa swap : Bool) (lk : List Char) (fuel : Nat)
    (acc : List Tree) (c : Char) (rest : List Char) (h : ¬(c = '(' ∨ c = ',')) :
    parseChildrenF wa swap lk (fuel + 1) acc (c :: rest) = some (acc, c :: rest) := by
  rw [parseChildrenF]
  rw [if_neg h]

theorem parseTreeF_leaf (wa swap : Bool) (lk : List Char) (fuel : Nat)
    (s : List Char) (h : s.head? ≠ some '(') :
    parseTreeF wa swap lk (fuel + 1) s =
      finishNode wa swap lk []
        (s.take (if wa then min (find s '[') (find s ':') else find s ':'))
        (s.drop (if wa then min (find s '[') (find s ':') else find s ':')) := by
  rw [parseTreeF]
  rw [if_neg h]

theorem parseTreeF_paren (wa swap : Bool) (lk : List Char) (fuel : Nat)
    (x : List Char) :
    parseTreeF wa swap lk (fuel + 1) ('(' :: x) =
      (parseChildrenF wa swap lk fuel [] ('(' :: x)).bind (fun cr =>
        match cr.2 with
        | ')' :: s2 =>
          match s2 with
          | [] => none
          | c :: _ =>
            if c ≠ ':' ∧ c ≠ '[' ∧ c ≠ ')' ∧ c ≠ ';' then
              finishNode wa swap lk cr.1
                (s2.take (if wa then min (find s2 '[') (find s2 ':') else find s2 ':'))
                (s2.drop (if wa then min (find s2 '[') (find s2 ':') else find s2 ':'))
            else finishNode wa swap lk cr.1 [] s2
        | _ => none) := by
  rw [parseTreeF]
  rw [if_pos (show (('(' :: x).head? = some '(') from rfl)]

theorem goodChar_ne {c : Char} (h : goodChar c = true) {d : Char}
    (hd : d ∈ specialChars) : c ≠ d := by
  intro heq
  subst heq
  unfold goodChar at h
  rw [Bool.not_eq_true'] at h
  rw [List.contains_eq_any_beq] at h
  rw [List.any_eq_false] at h
  have := h c hd
  simp at this

theorem to_newick_append_leaf (i : Info) (rest : List Char) :
    Tree.to_newick false (.node i []) ++ rest
      = i.name ++ ':' :: (floatStr i.length ++ rest) := by
  rw [Tree.to_newick]
  rw [if_pos (show ([] : List Tree).isEmpty = true from rfl), if_neg (by simp)]
  simp [List.append_assoc]

theorem to_newick_append_internal (i : Info) (c : Tree) (cs : List Tree)
    (rest : List Char) :
    Tree.to_newick false (.node i (c :: cs)) ++ rest
      = '(' :: (newickChildren false (c :: cs)
          ++ ')' :: ':' :: (floatStr i.length ++ rest)) := by
  rw [Tree.to_newick]
  rw [if_neg (by simp), if_neg (by simp)]
  simp [List.append_assoc]

/-- Round-trip property of `parseTreeF` for trees of size at most `n`. -/
def ParseSerOk (n : Nat) : Prop :=
  ∀ t : Tree, t.tree_size ≤ n → wfTree t = true →
    ∀ (lk : List Char) (fuel : Nat), 2 * t.tree_size ≤ fuel →
    ∀ rest : List Char, restOk rest →
      parseTreeF true false lk fuel (Tree.to_newick false t ++ rest)
        = some (stripTree t, rest)

theorem children_loop (n : Nat) (ih : ParseSerOk n) :
    ∀ cs : List Tree, treeSizeList cs ≤ n → wfList cs = true → cs ≠ [] →
    ∀ (lk : List Char) (fuel : Nat), 1 + 2 * treeSizeList cs ≤ fuel →
    ∀ (acc : List Tree) (rest2 : List Char) (sep : Char), (sep = '(' ∨ sep = ',') →
      parseChildrenF true false lk fuel acc
          (sep :: (newickChildren false cs ++ ')' :: rest2))
        = some (acc ++ stripList cs, ')' :: rest2) := by
  intro cs
  induction cs with
  | nil => intro _ _ hne; exact absurd rfl hne
  | cons c cs' ihl =>
    intro hsz hwf _ lk fuel hfuel acc rest2 sep hsep
    have hsc := tree_size_pos c
    have hszeq : treeSizeList (c :: cs') = c.tree_size + treeSizeList cs' := rfl
    have hwfc : wfTree c = true ∧ wfList cs' = true := by
      have : (wfTree c && wfList cs') = true := hwf
      simp at this
      exact this
    cases fuel with
    | zero => omega
    | succ fuel =>
      cases cs' with
      | nil =>
        rw [show newickChildren false [c] = Tree.to_newick false c from rfl]
        rw [parseChildrenF_step _ _ _ _ _ _ _ hsep]
        rw [ih c (by omega) hwfc.1 lk fuel (by omega) (')' :: rest2)
          (Or.inr (Or.inr rfl))]
        rw [Option.some_bind]
        have h2 : 2 ≤ fuel := by omega
        cases fuel with
        | zero => omega
        | succ fuel =>
          rw [parseChildrenF_stop _ _ _ _ _ _ _ (by decide)]
          rfl
      | cons c2 cs'' =>
        rw [show newickChildren false (c :: c2 :: cs'')
            = Tree.to_newick false c ++ ',' :: newickChildren false (c2 :: cs'')
          from rfl]
        rw [show (Tree.to_newick false c ++ ',' :: newickChildren false (c2 :: cs''))
              ++ ')' :: rest2
            = Tree.to_newick false c
              ++ ',' :: (newickChildren false (c2 :: cs'') ++ ')' :: rest2)
          from by simp [List.append_assoc]]
        rw [parseChildrenF_step _ _ _ _ _ _ _ hsep]
        rw [ih c (by
            have := tree_size_pos c2
            omega) hwfc.1 lk fuel (by
            have := tree_size_pos c2
            omega)
          (',' :: (newickChildren false (c2 :: cs'') ++ ')' :: rest2))
          (Or.inr (Or.inl rfl))]
        rw [Option.some_bind]
        rw [ihl (by omega) hwfc.2 (by simp) lk fuel (by omega)
          (acc ++ [stripTree c]) rest2 ',' (Or.inr rfl)]
        rw [show stripList (c :: c2 :: cs'')
            = stripTree c :: stripList (c2 :: cs'') from rfl]
        simp

theorem parse_ser_ok : ∀ n, ParseSerOk n := by
  intro n
  induction n using Nat.strong_induction_on with
  | _ n ihn =>
    intro t hsz hwf lk fuel hfuel rest hrest
    cases t with
    | node i cs =>
      have hwfe : (i.name.all goodChar && wfLen i.length && wfList cs) = true := hwf
      simp only [Bool.and_eq_true] at hwfe
      obtain ⟨⟨hname, hlen⟩, hwl⟩ := hwfe
      cases cs with
      | nil =>
        have hs1 : (Tree.node i []).tree_size = 1 := rfl
        have h2 : 2 ≤ fuel := by omega
        cases fuel with
        | zero => omega
        | succ fuel =>
          rw [to_newick_append_leaf]
          rw [parseTreeF_leaf _ _ _ _ _ (by
            cases hn : i.name with
            | nil => simp
            | cons d nr =>
              simp only [List.cons_append, List.head?_cons, ne_eq, Option.some.injEq]
              have hg : goodChar d = true := by
                rw [List.all_eq_true] at hname
                exact hname d (by rw [hn]; exact List.mem_cons_self _ _)
              exact goodChar_ne hg (by decide))]
          rw [if_pos rfl]
          rw [name_stop_eq i.name (floatStr i.length ++ rest) hname]
          rw [List.take_left, List.drop_left]
          rw [finishNode_ser lk [] i.name i.length hlen rest hrest]
          rfl
      | cons c cs' =>
        have hseq : (Tree.node i (c :: cs')).tree_size
            = 1 + treeSizeList (c :: cs') := rfl
        have hS1 : 1 ≤ treeSizeList (c :: cs') := by
          have := tree_size_pos c
          have : treeSizeList (c :: cs') = c.tree_size + treeSizeList cs' := rfl
          omega
        have h1 : 1 ≤ fuel := by omega
        cases fuel with
        | zero => omega
        | succ fuel =>
          rw [to_newick_append_internal]
          rw [parseTreeF_paren]
          rw [children_loop (n - 1) (ihn (n - 1) (by omega)) (c :: cs')
            (by omega) hwl (by simp) lk fuel (by omega) []
            (':' :: (floatStr i.length ++ rest)) '(' (Or.inl rfl)]
          rw [Option.some_bind]
          simp only [List.nil_append]
          rw [if_neg (by simp : ¬(':' ≠ ':' ∧ ':' ≠ '[' ∧ ':' ≠ ')' ∧ ':' ≠ ';'))]
          rw [finishNode_ser lk (stripList (c :: cs')) [] i.length hlen rest hrest]
          rfl

mutual

/-- Identical topology: the same child counts in the same order at every
node, with equal branch lengths. -/
def sameShape : Tree → Tree → Bool
  | .node i cs, .node i2 cs2 => (i.length == i2.length) && sameShapeList cs cs2

def sameShapeList : List Tree → List Tree → Bool
  | [], [] => true
  | c :: cs, d :: ds => sameShape c d && sameShapeList cs ds
  | _, _ => false

end

mutual

/-- Every node of the tree has empty attributes. -/
def attrsEmpty : Tree → Bool
  | .node i cs => i.attributes.isEmpty && attrsEmptyList cs

def attrsEmptyList : List Tree → Bool
  | [] => true
  | c :: cs => attrsEmpty c && attrsEmptyList cs

end

theorem sameShape_strip : ∀ t : Tree, sameShape t (stripTree t) = true := by
  exact Tree.inductionOn
    (P := fun t => sameShape t (stripTree t) = true)
    (Q := fun cs => sameShapeList cs (stripList cs) = true)
    (fun i cs hq => by
      beta_reduce
      rw [show stripTree (.node i cs)
          = .node ⟨i.length, if cs.isEmpty then i.name else [], [], none, [0]⟩
              (stripList cs) from rfl]
      rw [sameShape]
      simp [hq])
    rfl
    (fun t ts hp hq => by
      beta_reduce
      rw [show stripList (t :: ts) = stripTree t :: stripList ts from rfl]
      rw [sameShapeList]
      simp [hp, hq])

theorem attrsEmpty_strip : ∀ t : Tree, attrsEmpty (stripTree t) = true := by
  exact Tree.inductionOn
    (P := fun t => attrsEmpty (stripTree t) = true)
    (Q := fun cs => attrsEmptyList (stripList cs) = true)
    (fun i cs hq => by
      beta_reduce
      rw [show stripTree (.node i cs)
          = .node ⟨i.length, if cs.isEmpty then i.name else [], [], none, [0]⟩
              (stripList cs) from rfl]
      rw [attrsEmpty]
      simp [hq])
    rfl
    (fun t ts hp hq => by
      beta_reduce
      rw [show stripList (t :: ts) = stripTree t :: stripList ts from rfl]
      rw [attrsEmptyList]
      simp [hp, hq])

theorem ser_length_ge : ∀ t : Tree, t.tree_size ≤ (Tree.to_newick false t).length := by
  exact Tree.inductionOn
    (P := fun t => t.tree_size ≤ (Tree.to_newick false t).length)
    (Q := fun cs => cs ≠ [] → treeSizeList cs ≤ (newickChildren false cs).length)
    (fun i cs hq => by
      beta_reduce
      rw [Tree.to_newick]
      cases cs with
      | nil =>
        simp [Tree.tree_size, treeSizeList]
        omega
      | cons c cs' =>
        rw [if_neg (by simp), if_neg (by simp)]
        have := hq (by simp)
        have hsz : (Tree.node i (c :: cs')).tree_size
            = 1 + treeSizeList (c :: cs') := rfl
        simp only [List.length_append, List.length_cons]
        omega)
    (fun h => absurd rfl h)
    (fun t ts hp hq => by
      beta_reduce
      intro _
      cases ts with
      | nil =>
        rw [show newickChildren false [t] = Tree.to_newick false t from rfl]
        rw [show treeSizeList [t] = t.tree_size + 0 from rfl]
        omega
      | cons t2 ts' =>
        rw [show newickChildren false (t :: t2 :: ts')
            = Tree.to_newick false t ++ ',' :: newickChildren false (t2 :: ts')
          from rfl]
        have := hq (by simp)
        rw [show treeSizeList (t :: t2 :: ts')
            = t.tree_size + treeSizeList (t2 :: ts') from rfl]
        simp only [List.length_append, List.length_cons]
        omega)

/-- A leaf whose name contains a `:` delimiter — the C5 counterexample. -/
def c5Bad : Tree := .node ⟨0, ['x', ':', 'y'], [], none, [0]⟩ []

/-- Counterexample to C5 as stated: the programmatically built leaf named
`"x:y"` (length 0) serializes to `"x:y:0.0"`, whose re-parse reads the name
`"x"` and then fails fatally trying to parse `"y:0.0"` as a float — no tree
at all is produced, hence no tree of identical topology. -/
theorem roundtrip_cex :
    parse_tree (Tree.to_newick false c5Bad) true false ("location".toList) = none := by
  rfl

/-- C5 amended: for trees whose node names contain no Newick delimiter
characters (and branch lengths that are nonnegative finite decimals, as
every Python float value is), parsing the attribute-free serialization
succeeds, consumes the whole string, and yields a tree with identical
topology (same child counts in the same order), equal branch lengths, and
empty attributes at every node. -/
theorem roundtrip_amended (t : Tree) (h : wfTree t = true) :
    parse_tree (Tree.to_newick false t) true false ("location".toList)
      = some (stripTree t, [])
    ∧ sameShape t (stripTree t) = true
    ∧ attrsEmpty (stripTree t) = true := by
  refine ⟨?_, sameShape_strip t, attrsEmpty_strip t⟩
  unfold parse_tree
  have hfuel : 2 * t.tree_size ≤ 2 * (Tree.to_newick false t).length + 2 := by
    have := ser_length_ge t
    omega
  have hmain := parse_ser_ok t.tree_size t (le_refl _) h ("location".toList)
    (2 * (Tree.to_newick false t).length + 2) hfuel [] (Or.inl rfl)
  rw [List.append_nil] at hmain
  exact hmain

/-- A concrete well-formed two-leaf tree for the C5 witness. -/
def c5Good : Tree :=
  .node ⟨0, [], [], none, [0]⟩
    [.node ⟨1, ['a'], [], none, [0]⟩ [], .node ⟨2, ['b'], [], none, [0]⟩ []]

/-- Witness for the amended C5: the tree `(a:1.0,b:2.0):0.0` round-trips. -/
theorem roundtrip_amended_witness :
    wfTree c5Good = true
    ∧ parse_tree (Tree.to_newick false c5Good) true false ("location".toList)
        = some (stripTree c5Good, [])
    ∧ sameShape c5Good (stripTree c5Good) = true :=
  ⟨by rfl, (roundtrip_amended c5Good (by rfl)).1, (roundtrip_amended c5Good (by rfl)).2.1⟩

end Phylo
